import Mathlib

/-!
# duphard: duplicate finder and hardlinker

A shallow embedding of `duphard.go` (the body of `main`) and the properties of its
pipeline: size bucketing (`check`), checksum grouping (`checksum`), the hardlink-aware
planner loop that accumulates `spaceFreed`, and the linker loop of the apply mode.

Modelling conventions.

* The filesystem is a map from path to inode number together with an inode table
  (`FS`).  `os.Stat`, `os.SameFile`, `os.Remove`, `os.Link` and reading a file are
  modelled on it (`Stat`, `SameFile`, `Remove`, `Link`, `ReadFile`).
* A Go `map[K]V` is a list of entries with distinct keys (`GoMap`); `goGet`, `goSet`,
  `goDelete` are indexing, assignment and `delete`.
* The order in which `range` visits a map is unspecified in Go.  Where the order can
  influence the result, the loop iterates in the order chosen by a `RangeOrder`, and
  the theorems hold for every order that is a permutation of the entries.
* `filepath.Walk` is the external tree walker: the sequence of paths on which it
  calls `check` is the parameter `visited`.
* `md5` is a parameter `md5sum` (content to digest); nothing is assumed about it.
* `int64` arithmetic on `spaceFreed` wraps (`wrapInt64`).
* A run-time panic and `os.Exit(1)` are the errors of `Except Abort`.
-/

namespace Duphard

/-! ## Filesystem -/

/-- On-disk file: byte size as reported by stat, whether it is a regular file, and
its content (`none` when it cannot be opened or read). -/
structure Inode where
  size : Nat
  regular : Bool
  content : Option String

/-- Filesystem state: directory entries (path to inode number) and the inode table. -/
structure FS where
  entry : String → Option Nat
  inode : Nat → Inode

/-- What `os.Stat` returns on success: identity key, size, and mode. -/
structure FileInfo where
  ino : Nat
  size : Nat
  regular : Bool
deriving DecidableEq, Repr

/-- `os.Stat(path)`: `none` is the error case (the returned `FileInfo` is nil). -/
def Stat (fs : FS) (path : String) : Option FileInfo :=
  match fs.entry path with
  | none => none
  | some i => some ⟨i, (fs.inode i).size, (fs.inode i).regular⟩

/-- `os.SameFile(fi1, fi2)`: false when either argument is nil, otherwise the
identity keys are compared. -/
def SameFile : Option FileInfo → Option FileInfo → Bool
  | some a, some b => decide (a.ino = b.ino)
  | _, _ => false

/-- `os.Open(path)` followed by `io.Copy(hash, file)`: the bytes read, `none` on error. -/
def ReadFile (fs : FS) (path : String) : Option String :=
  match fs.entry path with
  | none => none
  | some i => (fs.inode i).content

/-- `os.Remove(path)`: fails when the path does not exist. -/
def Remove (fs : FS) (path : String) : Option FS :=
  match fs.entry path with
  | none => none
  | some _ => some { fs with entry := fun q => if q = path then none else fs.entry q }

/-- `os.Link(oldname, newname)`: fails when `oldname` does not exist or `newname`
already exists; otherwise `newname` refers to the inode of `oldname`. -/
def Link (fs : FS) (oldname newname : String) : Option FS :=
  match fs.entry oldname with
  | none => none
  | some i =>
    match fs.entry newname with
    | some _ => none
    | none => some { fs with entry := fun q => if q = newname then some i else fs.entry q }

/-! ## Go maps -/

/-- Go map as its list of entries (keys pairwise distinct). -/
abbrev GoMap (κ ν : Type) := List (κ × ν)

/-- Map indexing `m[k]` with the comma-ok result. -/
def goGet {κ ν : Type} [DecidableEq κ] : GoMap κ ν → κ → Option ν
  | [], _ => none
  | (k', v) :: m, k => if k' = k then some v else goGet m k

/-- Map assignment `m[k] = v`. -/
def goSet {κ ν : Type} [DecidableEq κ] : GoMap κ ν → κ → ν → GoMap κ ν
  | [], k, v => [(k, v)]
  | (k', v') :: m, k, v => if k' = k then (k, v) :: m else (k', v') :: goSet m k v

/-- Builtin `delete(m, k)`. -/
def goDelete {κ ν : Type} [DecidableEq κ] (m : GoMap κ ν) (k : κ) : GoMap κ ν :=
  m.filter (fun e => decide (e.1 ≠ k))

/-- Keys of a map. -/
def goKeys {κ ν : Type} (m : GoMap κ ν) : List κ := m.map Prod.fst

/-- Choice of iteration order at each `range` over a map whose order can matter:
the size buckets and the paths of a bucket when checksumming (lines 130-131), the
digest groups in the planner (line 155), in the listing (line 179) and in the linker
(line 187). -/
structure RangeOrder where
  sizes : GoMap Nat (GoMap String Bool) → List (Nat × GoMap String Bool)
  paths : GoMap String Bool → List (String × Bool)
  plan : GoMap String (List String) → List (String × List String)
  listing : GoMap String (List String) → List (String × List String)
  link : GoMap String (List String) → List (String × List String)

/-- Every `range` visits each entry of its map exactly once. -/
def RangeOrder.Valid (o : RangeOrder) : Prop :=
  (∀ m, (o.sizes m).Perm m) ∧ (∀ b, (o.paths b).Perm b) ∧ (∀ g, (o.plan g).Perm g) ∧
    (∀ g, (o.listing g).Perm g) ∧ (∀ g, (o.link g).Perm g)

/-- Iteration in storage order at every `range`. -/
def RangeOrder.stored : RangeOrder := ⟨id, id, id, id, id⟩

/-- Iteration in reverse storage order at every `range`. -/
def RangeOrder.reversed : RangeOrder :=
  ⟨List.reverse, List.reverse, List.reverse, List.reverse, List.reverse⟩

/-! ## Stage 1: size bucketing (lines 54-97) -/

/-- The closure `check` (lines 58-80), called by the walker on every path it visits.
The inner `range` runs over the members the bucket has when the loop starts; the only
entry the loop can add is `path` itself. -/
def check (fs : FS) (sizeList : GoMap Nat (GoMap String Bool)) (path : String) :
    GoMap Nat (GoMap String Bool) :=
  match Stat fs path with
  | none => sizeList
  | some f =>
    if f.regular then
      match goGet sizeList f.size with
      | none => goSet sizeList f.size (goSet [] path true)
      | some bucket =>
        goSet sizeList f.size
          ((goKeys bucket).foldl
            (fun b k => if !SameFile (some f) (Stat fs k) then goSet b path true else b) bucket)
    else sizeList

/-- Lines 83-85: the walker calls `check` on each visited path. -/
def walkAll (fs : FS) (visited : List String) : GoMap Nat (GoMap String Bool) :=
  visited.foldl (check fs) []

/-- Lines 88-92: delete the size buckets with exactly one member. -/
def dropSingleBuckets (sizeList : GoMap Nat (GoMap String Bool)) :
    GoMap Nat (GoMap String Bool) :=
  sizeList.foldl (fun m e => if e.2.length = 1 then goDelete m e.1 else m) sizeList

/-! ## Stage 2: checksum grouping (lines 105-146) -/

/-- The closure `checksum` (lines 107-127). -/
def checksum (md5sum : String → String) (fs : FS) (checksumList : GoMap String (List String))
    (path : String) : GoMap String (List String) :=
  match ReadFile fs path with
  | none => checksumList
  | some data =>
    let c := md5sum data
    let checksumList :=
      match goGet checksumList c with
      | none => goSet checksumList c []
      | some _ => checksumList
    goSet checksumList c ((goGet checksumList c).getD [] ++ [path])

/-- Lines 130-134: run `checksum` on every path of every size bucket. -/
def checksumAll (md5sum : String → String) (ord : RangeOrder) (fs : FS)
    (sizeList : GoMap Nat (GoMap String Bool)) : GoMap String (List String) :=
  (ord.sizes sizeList).foldl
    (fun cl e => (ord.paths e.2).foldl (fun cl kv => checksum md5sum fs cl kv.1) cl) []

/-- Lines 137-141: delete the digest groups with exactly one member. -/
def dropSingleGroups (checksumList : GoMap String (List String)) :
    GoMap String (List String) :=
  checksumList.foldl (fun m e => if e.2.length = 1 then goDelete m e.1 else m) checksumList

/-! ## Stage 3: planner (lines 150-176) -/

/-- Ways the run stops abnormally. -/
inductive Abort
  | indexOutOfRange
  | nilDereference
  | exit1
deriving DecidableEq, Repr

/-- Two's-complement wrap of an `int64` result. -/
def wrapInt64 (x : Int) : Int := (x + 2 ^ 63) % 2 ^ 64 - 2 ^ 63

/-- The inner loop `for i := len(v) - 1; i > 0; i--` (lines 161-175); the first
argument is the current value of `i`.  `v` is the loop-local slice: `v = v[:len(v)-1]`
shortens the local only, the map entry is untouched.  `dst.Size()` on a nil `dst` is
a nil dereference. -/
def plannerInner (fs : FS) (k : String) (src : Option FileInfo) :
    Nat → List String → GoMap String (List String) → Int →
      Except Abort (GoMap String (List String) × Int)
  | 0, _, checksumList, spaceFreed => .ok (checksumList, spaceFreed)
  | i + 1, v, checksumList, spaceFreed =>
    match v[i + 1]? with
    | none => .error .indexOutOfRange
    | some p =>
      let dst := Stat fs p
      if SameFile src dst then
        if v.length > 2 then
          plannerInner fs k src i (v.take (v.length - 1)) checksumList spaceFreed
        else
          plannerInner fs k src i v (goDelete checksumList k) spaceFreed
      else
        match dst with
        | none => .error .nilDereference
        | some d => plannerInner fs k src i v checksumList (wrapInt64 (spaceFreed + d.size))

/-- One iteration of the outer planner loop (lines 155-176) on the entry `(k, v)`. -/
def plannerStep (fs : FS) (st : GoMap String (List String) × Int) (e : String × List String) :
    Except Abort (GoMap String (List String) × Int) :=
  match e.2[0]? with
  | none => .error .indexOutOfRange
  | some p0 => plannerInner fs e.1 (Stat fs p0) (e.2.length - 1) e.2 st.1 st.2

/-- The planner loop over a list of entries, threading the map and `spaceFreed`. -/
def plannerLoop (fs : FS) :
    List (String × List String) → GoMap String (List String) × Int →
      Except Abort (GoMap String (List String) × Int)
  | [], st => .ok st
  | e :: es, st =>
    match plannerStep fs st e with
    | .error a => .error a
    | .ok st' => plannerLoop fs es st'

/-- Lines 150-176: the planner, `spaceFreed` starting at zero. -/
def planner (ord : RangeOrder) (fs : FS) (checksumList : GoMap String (List String)) :
    Except Abort (GoMap String (List String) × Int) :=
  plannerLoop fs (ord.plan checksumList) (checksumList, 0)

/-! ## Stage 4: linker (lines 184-207) -/

/-- The trace lines printed by the linker. -/
inductive Trace
  | deleting (path : String)
  | linking (canonical path : String)
deriving DecidableEq, Repr

/-- The inner linker loop `for i := len(v) - 1; i > 0; i--` (lines 190-203); the
second argument is the current value of `i`. -/
def linkerInner (v : List String) (c : String) :
    Nat → FS × List Trace → Except Abort (FS × List Trace)
  | 0, st => .ok st
  | i + 1, (fs, tr) =>
    match v[i + 1]? with
    | none => .error .indexOutOfRange
    | some p =>
      match Remove fs p with
      | none => .error .exit1
      | some fs1 =>
        match Link fs1 c p with
        | none => .error .exit1
        | some fs2 => linkerInner v c i (fs2, tr ++ [.deleting p, .linking c p])

/-- One iteration of the outer linker loop (lines 187-205). -/
def linkerStep (st : FS × List Trace) (e : String × List String) :
    Except Abort (FS × List Trace) :=
  match e.2[0]? with
  | none => .error .indexOutOfRange
  | some c =>
    match Stat st.1 c with
    | none => .ok st
    | some _ => linkerInner e.2 c (e.2.length - 1) st

/-- The linker loop over a list of entries. -/
def linkerLoop : List (String × List String) → FS × List Trace → Except Abort (FS × List Trace)
  | [], st => .ok st
  | e :: es, st =>
    match linkerStep st e with
    | .error a => .error a
    | .ok st' => linkerLoop es st'

/-- Lines 187-205: the linker on the map left by the planner. -/
def linker (ord : RangeOrder) (fs : FS) (checksumList : GoMap String (List String)) :
    Except Abort (FS × List Trace) :=
  linkerLoop (ord.link checksumList) (fs, [])

/-! ## The whole run -/

/-- The figures of the console report, in the order printed. -/
structure Report where
  sizeGroups : Nat
  checksumGroups : Nat
  groups : List (List String)
  spaceFreed : Int

/-- How a run ends. -/
inductive Outcome
  | noDuplicatesAfterSize
  | noDuplicatesAfterChecksum (sizeGroups : Nat)
  | panicked (sizeGroups checksumGroups : Nat) (a : Abort)
  | dryRun (r : Report)
  | applyFailed (r : Report) (a : Abort)
  | applied (r : Report) (fs : FS) (trace : List Trace)

/-- The size candidates after the walk (lines 54-92). -/
def sizeStage (fs : FS) (visited : List String) : GoMap Nat (GoMap String Bool) :=
  dropSingleBuckets (walkAll fs visited)

/-- The checksum candidates (lines 105-141). -/
def checksumStage (md5sum : String → String) (ord : RangeOrder) (fs : FS)
    (visited : List String) : GoMap String (List String) :=
  dropSingleGroups (checksumAll md5sum ord fs (sizeStage fs visited))

/-- The body of `main`. -/
def run (dryrun : Bool) (md5sum : String → String) (ord : RangeOrder) (fs : FS)
    (visited : List String) : Outcome :=
  let sizeList := sizeStage fs visited
  if sizeList.length = 0 then .noDuplicatesAfterSize
  else
    let checksumList := checksumStage md5sum ord fs visited
    if checksumList.length = 0 then .noDuplicatesAfterChecksum sizeList.length
    else
      match planner ord fs checksumList with
      | .error a => .panicked sizeList.length checksumList.length a
      | .ok (groups, spaceFreed) =>
        let r : Report :=
          ⟨sizeList.length, checksumList.length, (ord.listing groups).map Prod.snd, spaceFreed⟩
        if dryrun then .dryRun r
        else
          match linker ord fs groups with
          | .error a => .applyFailed r a
          | .ok (fs', tr) => .applied r fs' tr

/-! ## Reading the outcome of a run -/

/-- The report a run printed before it ended, if it got that far. -/
def Outcome.report? : Outcome → Option Report
  | .dryRun r => some r
  | .applyFailed r _ => some r
  | .applied r _ _ => some r
  | _ => none

/-- The filesystem a run leaves when it completes successfully (exit status 0);
`none` when it panics or stops at a delete or link error. -/
def Outcome.resultFS (fs : FS) : Outcome → Option FS
  | .noDuplicatesAfterSize => some fs
  | .noDuplicatesAfterChecksum _ => some fs
  | .dryRun _ => some fs
  | .applied _ fs' _ => some fs'
  | .panicked _ _ _ => none
  | .applyFailed _ _ => none

/-- The run reports "No duplicates found." or completes with zero reclaimable bytes. -/
def Outcome.nothingToReclaim : Outcome → Bool
  | .noDuplicatesAfterSize => true
  | .noDuplicatesAfterChecksum _ => true
  | .dryRun r => decide (r.spaceFreed = 0)
  | .applied r _ _ => decide (r.spaceFreed = 0)
  | .panicked _ _ _ => false
  | .applyFailed _ _ => false

/-! ## Quantities the statements are phrased in -/

/-- Size of the file a path refers to (0 when it cannot be stat'ed). -/
def statSize (fs : FS) (p : String) : Nat :=
  match Stat fs p with
  | some d => d.size
  | none => 0

/-- Whether path `p` is the same underlying file as path `c`. -/
def sameAs (fs : FS) (c p : String) : Bool := SameFile (Stat fs c) (Stat fs p)

/-- Path `p` can be stat'ed and is a regular file of `s` bytes. -/
def regularOfSize (fs : FS) (p : String) (s : Nat) : Bool :=
  match Stat fs p with
  | some f => f.regular && decide (f.size = s)
  | none => false

/-- Digest of the file at a path, `none` when it cannot be read. -/
def digestOf (md5sum : String → String) (fs : FS) (p : String) : Option String :=
  (ReadFile fs p).map md5sum

/-- Bytes reclaimable in one digest group: the sizes of the non-canonical members
(list indices from 1 on) that are not the same underlying file as the first member. -/
def groupReclaimable (fs : FS) : List String → Nat
  | [] => 0
  | c :: rest => ((rest.filter (fun p => !sameAs fs c p)).map (statSize fs)).sum

/-- Bytes reclaimable over all digest groups. -/
def reclaimable (fs : FS) (checksumList : GoMap String (List String)) : Nat :=
  (checksumList.map (fun e => groupReclaimable fs e.2)).sum

/-- Every non-canonical member of the group is the same underlying file as the
first member, and there is at least one non-canonical member. -/
def allHardlinked (fs : FS) : List String → Bool
  | [] => false
  | c :: rest => !rest.isEmpty && rest.all (fun p => sameAs fs c p)

/-- The sequence of paths on which lines 130-134 call `checksum`. -/
def hashSeq (ord : RangeOrder) (sizeList : GoMap Nat (GoMap String Bool)) : List String :=
  (ord.sizes sizeList).flatMap (fun e => (ord.paths e.2).map Prod.fst)

/-- The groups the planner leaves for the scan of a static filesystem (the map that
is listed and handed to the linker); empty if the planner panics. -/
def plannedGroups (md5sum : String → String) (ord : RangeOrder) (fs : FS)
    (visited : List String) : GoMap String (List String) :=
  match planner ord fs (checksumStage md5sum ord fs visited) with
  | .ok (groups, _) => groups
  | .error _ => []

/-! ## Invariants -/

/-- Invariant of the size map during the walk: keys are distinct; buckets are non-empty
sets of visited regular files of the size they are keyed by; every visited regular
file has a path of the same underlying file in the bucket of its size; a bucket with
two or more members holds two different underlying files. -/
structure WalkInv (fs : FS) (visited : List String) (sl : GoMap Nat (GoMap String Bool)) :
    Prop where
  keys : (goKeys sl).Nodup
  bkeys : ∀ s b, goGet sl s = some b → (goKeys b).Nodup ∧ b ≠ []
  sound : ∀ s b, goGet sl s = some b → ∀ p ∈ goKeys b, p ∈ visited ∧ regularOfSize fs p s = true
  repr : ∀ p ∈ visited, ∀ s, regularOfSize fs p s = true →
    ∃ b, goGet sl s = some b ∧ ∃ q ∈ goKeys b, fs.entry q = fs.entry p
  twoFiles : ∀ s b, goGet sl s = some b → 2 ≤ b.length →
    ∃ p ∈ goKeys b, ∃ q ∈ goKeys b, fs.entry p ≠ fs.entry q

/-- No two different visited paths are regular files that are hardlinks of each
other. -/
def NoAlias (fs : FS) (visited : List String) : Prop :=
  ∀ p ∈ visited, ∀ q ∈ visited, ∀ s t, regularOfSize fs p s = true →
    regularOfSize fs q t = true → fs.entry p = fs.entry q → p = q

/-- Filesystem `fs'` is `fs` after the non-canonical members of the groups `cs` were
replaced by hardlinks to the canonical member of their group: every path refers in
`fs'` to what a path `cx` referred to in `fs`, where `cx` is the path itself or the
canonical path of the group that lists it, and `cx` is never a non-canonical member. -/
def LinkedFrom (fs fs' : FS) (cs : GoMap String (List String)) : Prop :=
  fs'.inode = fs.inode ∧
  ∀ x, ∃ cx, fs'.entry x = fs.entry cx ∧ (∀ e ∈ cs, cx ∉ e.2.tail) ∧
    (cx = x ∨ ∃ e ∈ cs, e.2.head? = some cx ∧ x ∈ e.2.tail)

/-! ## Scenario data -/

/-- Inode table of the scenarios: inode 1 and 2 hold "hello", inode 3 holds "world",
all regular, 5 bytes; anything else is an unreadable non-regular placeholder. -/
def scenarioInodes : Nat → Inode := fun i =>
  if i = 1 ∨ i = 2 then ⟨5, true, some "hello"⟩
  else if i = 3 then ⟨5, true, some "world"⟩
  else ⟨0, false, none⟩

/-- Scenario A: `a.txt` and `b.txt` are two separate files with equal content. -/
def fsScenarioA : FS :=
  ⟨fun p => if p = "a.txt" then some 1 else if p = "b.txt" then some 2 else none, scenarioInodes⟩

/-- Scenario B: `b.txt` is a hardlink to `a.txt`. -/
def fsScenarioB : FS :=
  ⟨fun p => if p = "a.txt" then some 1 else if p = "b.txt" then some 1 else none, scenarioInodes⟩

/-- Scenario A after the apply run: `b.txt` is a hardlink of `a.txt`. -/
def fsScenarioALinked : FS :=
  match linker RangeOrder.stored fsScenarioA [("hello", ["a.txt", "b.txt"])] with
  | .ok (fs', _) => fs'
  | .error _ => fsScenarioA

/-- Three paths with equal content: `a.txt` and `c.txt` are hardlinks of one file,
`b.txt` is a separate file. -/
def fsLinkedEnds : FS :=
  ⟨fun p => if p = "a.txt" then some 1 else if p = "b.txt" then some 2
    else if p = "c.txt" then some 1 else none, scenarioInodes⟩

/-- Three paths with equal content: `a.txt` and `b.txt` are hardlinks of one file,
`c.txt` is a separate file. -/
def fsLinkedPair : FS :=
  ⟨fun p => if p = "a.txt" then some 1 else if p = "b.txt" then some 1
    else if p = "c.txt" then some 2 else none, scenarioInodes⟩

/-- Only `a.txt` exists (`b.txt` has vanished). -/
def fsOnlyA : FS :=
  ⟨fun p => if p = "a.txt" then some 1 else none, scenarioInodes⟩

/-- Two 1-byte files `a`, `b` and two 2-byte files `c`, `d`, all with different content. -/
def fsTwoSizes : FS :=
  ⟨fun p => if p = "a" then some 1 else if p = "b" then some 2
    else if p = "c" then some 3 else if p = "d" then some 4 else none,
   fun i => if i = 1 then ⟨1, true, some "p"⟩ else if i = 2 then ⟨1, true, some "q"⟩
    else if i = 3 then ⟨2, true, some "rr"⟩ else if i = 4 then ⟨2, true, some "ss"⟩
    else ⟨0, false, none⟩⟩

/-- Three separate files `a`, `b`, `c` of 2^63 - 1 bytes each (the largest `int64`
size), with equal content. -/
def fsHuge : FS :=
  ⟨fun p => if p = "a" then some 1 else if p = "b" then some 2
    else if p = "c" then some 3 else none,
   fun _ => ⟨9223372036854775807, true, some "z"⟩⟩

/-- Two 1-byte files `a`, `b` holding "p" and two 2-byte files `c`, `d` holding "rr". -/
def fsTwoPairs : FS :=
  ⟨fun p => if p = "a" then some 1 else if p = "b" then some 2
    else if p = "c" then some 3 else if p = "d" then some 4 else none,
   fun i => if i = 1 ∨ i = 2 then ⟨1, true, some "p"⟩ else ⟨2, true, some "rr"⟩⟩

/-! ## Go map lemmas -/

section GoMapLemmas
variable {κ ν : Type} [DecidableEq κ]

theorem goGet_eq_none_iff (m : GoMap κ ν) (k : κ) : goGet m k = none ↔ k ∉ goKeys m := by
  induction m with
  | nil => simp [goGet, goKeys]
  | cons e m ih =>
    obtain ⟨k', v⟩ := e
    by_cases h : k' = k
    · simp [goGet, goKeys, h]
    · have h' : ¬ k = k' := fun h2 => h h2.symm
      simpa [goGet, goKeys, h, h'] using ih

theorem goGet_mem {m : GoMap κ ν} {k : κ} {v : ν} (h : goGet m k = some v) : (k, v) ∈ m := by
  induction m with
  | nil => simp [goGet] at h
  | cons e m ih =>
    obtain ⟨k', v'⟩ := e
    by_cases hk : k' = k
    · simp [goGet, hk] at h
      simp [hk, h]
    · simp [goGet, hk] at h
      exact List.mem_cons_of_mem _ (ih h)

theorem goGet_of_mem {m : GoMap κ ν} (hm : (goKeys m).Nodup) {k : κ} {v : ν}
    (h : (k, v) ∈ m) : goGet m k = some v := by
  induction m with
  | nil => simp at h
  | cons e m ih =>
    obtain ⟨k', v'⟩ := e
    simp only [goKeys, List.map_cons, List.nodup_cons] at hm
    rcases List.mem_cons.1 h with h | h
    · injection h with h1 h2
      simp [goGet, h1, h2]
    · have hk : k ∈ goKeys m := List.mem_map.2 ⟨(k, v), h, rfl⟩
      have hne : ¬ k' = k := fun e => hm.1 (e ▸ hk)
      simpa [goGet, hne] using ih hm.2 h

theorem goGet_iff_mem {m : GoMap κ ν} (hm : (goKeys m).Nodup) (k : κ) (v : ν) :
    goGet m k = some v ↔ (k, v) ∈ m :=
  ⟨goGet_mem, goGet_of_mem hm⟩

theorem goGet_goSet (m : GoMap κ ν) (k k' : κ) (v : ν) :
    goGet (goSet m k v) k' = if k = k' then some v else goGet m k' := by
  induction m with
  | nil => simp [goSet, goGet]
  | cons e m ih =>
    obtain ⟨k0, v0⟩ := e
    by_cases h0 : k0 = k
    · subst h0
      by_cases h1 : k0 = k' <;> simp [goSet, goGet, h1]
    · by_cases h1 : k0 = k'
      · subst h1
        have : ¬ k = k0 := fun e => h0 e.symm
        simp [goSet, goGet, h0, this]
      · simp [goSet, goGet, h0, h1, ih]

theorem goKeys_goSet (m : GoMap κ ν) (k : κ) (v : ν) :
    goKeys (goSet m k v) = if k ∈ goKeys m then goKeys m else goKeys m ++ [k] := by
  induction m with
  | nil => simp [goSet, goKeys]
  | cons e m ih =>
    obtain ⟨k0, v0⟩ := e
    by_cases h0 : k0 = k
    · subst h0
      simp [goSet, goKeys]
    · have h0' : ¬ k = k0 := fun e => h0 e.symm
      simp only [goKeys] at ih
      by_cases hk : k ∈ List.map Prod.fst m
      · simp [goSet, goKeys, h0, h0', hk, ih]
      · simp [goSet, goKeys, h0, h0', hk, ih]

theorem mem_goKeys_goSet (m : GoMap κ ν) (k k' : κ) (v : ν) :
    k' ∈ goKeys (goSet m k v) ↔ k' = k ∨ k' ∈ goKeys m := by
  rw [goKeys_goSet]
  by_cases hk : k ∈ goKeys m
  · simp only [hk, if_true]
    constructor
    · exact Or.inr
    · rintro (h | h)
      · exact h ▸ hk
      · exact h
  · simp only [hk, if_false, List.mem_append, List.mem_singleton]
    tauto

theorem nodup_goKeys_goSet {m : GoMap κ ν} (hm : (goKeys m).Nodup) (k : κ) (v : ν) :
    (goKeys (goSet m k v)).Nodup := by
  rw [goKeys_goSet]
  by_cases hk : k ∈ goKeys m
  · simpa [hk] using hm
  · simp only [hk, if_false]
    refine List.Nodup.append hm (List.nodup_singleton k) ?_
    intro x hx hx'
    rw [List.mem_singleton] at hx'
    exact hk (hx' ▸ hx)

theorem key_unique {m : GoMap κ ν} (hm : (goKeys m).Nodup) {e e' : κ × ν}
    (he : e ∈ m) (he' : e' ∈ m) (hk : e.1 = e'.1) : e = e' := by
  obtain ⟨k, v⟩ := e
  obtain ⟨k', v'⟩ := e'
  simp only at hk
  subst hk
  have h1 := goGet_of_mem hm he
  have h2 := goGet_of_mem hm he'
  rw [h1] at h2
  injection h2 with h2
  rw [h2]

/-- Deleting, in any order, the keys of the visited entries that satisfy `c` leaves
the entries whose key was not deleted. -/
theorem foldl_goDelete_eq_filter (c : κ × ν → Bool) (es : List (κ × ν)) (m : GoMap κ ν) :
    es.foldl (fun m e => if c e = true then goDelete m e.1 else m) m =
      m.filter (fun e => !es.any (fun e' => c e' && decide (e'.1 = e.1))) := by
  induction es generalizing m with
  | nil => simp
  | cons e es ih =>
    rw [List.foldl_cons, ih]
    by_cases hc : c e = true
    · simp only [hc, if_true, goDelete, List.filter_filter, List.any_cons, Bool.true_and]
      apply List.filter_congr
      intro x _
      by_cases hx : e.1 = x.1
      · simp [hx]
      · have hx' : ¬ x.1 = e.1 := fun h => hx h.symm
        simp [hx, hx']
    · simp only [hc, List.any_cons]
      apply List.filter_congr
      intro x _
      simp [hc]

/-- When the visited entries are the entries of the map itself, the loop is a filter. -/
theorem foldl_goDelete_self (c : κ × ν → Bool) {es : List (κ × ν)} {m : GoMap κ ν}
    (hp : es.Perm m) (hm : (goKeys m).Nodup) :
    es.foldl (fun m e => if c e = true then goDelete m e.1 else m) m =
      m.filter (fun e => !c e) := by
  rw [foldl_goDelete_eq_filter]
  apply List.filter_congr
  intro x hx
  congr 1
  by_cases hcx : c x = true
  · rw [hcx, List.any_eq_true]
    exact ⟨x, hp.mem_iff.2 hx, by simp [hcx]⟩
  · have : c x = false := by simpa using hcx
    rw [this, List.any_eq_false]
    intro y hy hcy
    simp only [Bool.and_eq_true, decide_eq_true_eq] at hcy
    have := key_unique hm (hp.mem_iff.1 hy) hx hcy.2
    rw [this] at hcy
    exact hcx hcy.1

end GoMapLemmas

/-! ## Planner -/

theorem wrapInt64_wrap_add (a b : Int) : wrapInt64 (wrapInt64 a + b) = wrapInt64 (a + b) := by
  unfold wrapInt64
  omega

theorem wrapInt64_of_fits {x : Int} (h0 : 0 ≤ x) (h1 : x < 2 ^ 63) : wrapInt64 x = x := by
  unfold wrapInt64
  omega

theorem wrapInt64_idem (x : Int) : wrapInt64 (wrapInt64 x) = wrapInt64 x := by
  unfold wrapInt64
  omega

theorem goDelete_idem {κ ν : Type} [DecidableEq κ] (m : GoMap κ ν) (k : κ) :
    goDelete (goDelete m k) k = goDelete m k := by
  simp [goDelete, List.filter_filter]

/-- The inner planner loop started at index `j` on the local slice `v0[:L]`: it
does not panic when the members at indices `1..j` can be stat'ed, adds the sizes of
those that differ from `src`, and deletes the key exactly when the local slice
runs down to two members at a member that is the same file as `src`. -/
theorem plannerInner_spec (fs : FS) (k : String) (src : Option FileInfo) (v0 : List String)
    (j : Nat) :
    ∀ (L : Nat) (m : GoMap String (List String)) (sp : Int),
      j < L → L ≤ v0.length → wrapInt64 sp = sp →
      (∀ p ∈ (v0.drop 1).take j, (Stat fs p).isSome) →
      plannerInner fs k src j (v0.take L) m sp =
        .ok (if 1 ≤ ((v0.drop 1).take j).countP (fun p => SameFile src (Stat fs p)) ∧
                L ≤ ((v0.drop 1).take j).countP (fun p => SameFile src (Stat fs p)) + 1
              then goDelete m k else m,
             wrapInt64 (sp + ((((v0.drop 1).take j).filter
                (fun p => !SameFile src (Stat fs p))).map (statSize fs)).sum)) := by
  induction j with
  | zero =>
    intro L m sp _ _ hsp _
    simp [plannerInner, hsp]
  | succ j ih =>
    intro L m sp hjL hL hsp hstat
    have hlen : (v0.take L).length = L := by simp [List.length_take, hL]
    have hj0 : j + 1 < v0.length := by omega
    have hget : (v0.take L)[j + 1]? = some v0[j + 1] := by
      rw [List.getElem?_take_of_lt hjL, List.getElem?_eq_getElem hj0]
    have hdrop : (v0.drop 1)[j]? = some v0[j + 1] := by
      rw [List.getElem?_drop, Nat.add_comm, List.getElem?_eq_getElem hj0]
    have htake : (v0.drop 1).take (j + 1) = (v0.drop 1).take j ++ [v0[j + 1]] := by
      rw [List.take_succ, hdrop]; rfl
    have hstat' : ∀ p ∈ (v0.drop 1).take j, (Stat fs p).isSome := by
      intro p hp
      exact hstat p (by rw [htake]; exact List.mem_append_left _ hp)
    have hp0 : (Stat fs v0[j + 1]).isSome :=
      hstat _ (by rw [htake]; simp)
    rw [plannerInner, hget]
    simp only [htake, List.countP_append, List.filter_append, List.map_append, List.sum_append]
    by_cases hsame : SameFile src (Stat fs v0[j + 1]) = true
    · have hcount : List.countP (fun p => SameFile src (Stat fs p)) [v0[j + 1]] = 1 := by
        simp [hsame]
      have hfilter : List.filter (fun p => !SameFile src (Stat fs p)) [v0[j + 1]] = [] := by
        simp [hsame]
      rw [hcount, hfilter]
      simp only [hsame, if_true, hlen, List.map_nil, List.sum_nil, Nat.add_zero]
      by_cases hL2 : L > 2
      · simp only [hL2, if_true]
        have htt : (v0.take L).take (L - 1) = v0.take (L - 1) := by
          rw [List.take_take]; congr 1; omega
        rw [htt, ih (L - 1) m sp (by omega) (by omega) hsp hstat']
        generalize List.countP (fun p => SameFile src (Stat fs p)) (List.take j (List.drop 1 v0)) = c
        by_cases hc : L ≤ c + 1 + 1
        · rw [if_pos (show 1 ≤ c ∧ L - 1 ≤ c + 1 by omega), if_pos (show 1 ≤ c + 1 ∧ L ≤ c + 1 + 1 by omega)]
        · rw [if_neg (show ¬ (1 ≤ c ∧ L - 1 ≤ c + 1) by omega), if_neg (show ¬ (1 ≤ c + 1 ∧ L ≤ c + 1 + 1) by omega)]
      · simp only [hL2, if_false]
        rw [ih L (goDelete m k) sp (by omega) hL hsp hstat']
        generalize List.countP (fun p => SameFile src (Stat fs p)) (List.take j (List.drop 1 v0)) = c
        rw [if_pos (show 1 ≤ c + 1 ∧ L ≤ c + 1 + 1 by omega), goDelete_idem, ite_self]
    · have hsame' : SameFile src (Stat fs v0[j + 1]) = false := by simpa using hsame
      obtain ⟨d, hd⟩ := Option.isSome_iff_exists.1 hp0
      have hsz : statSize fs v0[j + 1] = d.size := by simp [statSize, hd]
      have hcount : List.countP (fun p => SameFile src (Stat fs p)) [v0[j + 1]] = 0 := by
        simp [hsame']
      have hfilter : List.filter (fun p => !SameFile src (Stat fs p)) [v0[j + 1]] = [v0[j + 1]] := by
        simp [hsame']
      rw [hcount, hfilter]
      simp only [hsame', Bool.false_eq_true, if_false, List.map_cons, List.map_nil,
        List.sum_cons, List.sum_nil, Nat.add_zero, hsz]
      rw [hd]
      simp only []
      rw [ih L m _ (by omega) hL (wrapInt64_idem _) hstat', wrapInt64_wrap_add]
      refine congrArg Except.ok (congrArg (Prod.mk _) (congrArg wrapInt64 ?_))
      push_cast
      omega

/-- One planner iteration on a non-empty group whose non-canonical members can be
stat'ed: the key is deleted exactly when all of them are hardlinks of the first
member, and the sizes of those that are not are added to `spaceFreed`. -/
theorem plannerStep_spec (fs : FS) (m : GoMap String (List String)) (sp : Int) (k c : String)
    (rest : List String) (hsp : wrapInt64 sp = sp) (hstat : ∀ p ∈ rest, (Stat fs p).isSome) :
    plannerStep fs (m, sp) (k, c :: rest) =
      .ok (if allHardlinked fs (c :: rest) = true then goDelete m k else m,
           wrapInt64 (sp + groupReclaimable fs (c :: rest))) := by
  have h := plannerInner_spec fs k (Stat fs c) (c :: rest) rest.length (rest.length + 1) m sp
    (by omega) (by simp) hsp (by simpa using hstat)
  have htake : (c :: rest).take (rest.length + 1) = c :: rest :=
    List.take_of_length_le (by simp)
  rw [htake] at h
  simp only [List.drop_one, List.tail_cons, List.take_length] at h
  simp only [plannerStep, List.getElem?_cons_zero, List.length_cons, Nat.add_sub_cancel]
  rw [h]
  have hcond : (1 ≤ rest.countP (fun p => SameFile (Stat fs c) (Stat fs p)) ∧
      rest.length + 1 ≤ rest.countP (fun p => SameFile (Stat fs c) (Stat fs p)) + 1) ↔
      allHardlinked fs (c :: rest) = true := by
    have hle := List.countP_le_length (fun p => SameFile (Stat fs c) (Stat fs p)) (l := rest)
    simp only [allHardlinked, sameAs, Bool.and_eq_true, Bool.not_eq_true', List.all_eq_true]
    constructor
    · rintro ⟨h1, h2⟩
      refine ⟨?_, ?_⟩
      · cases rest with
        | nil => simp at h1
        | cons a r => rfl
      · exact List.countP_eq_length.1 (by omega)
    · rintro ⟨h1, h2⟩
      have := List.countP_eq_length.2 h2
      cases rest with
      | nil => simp at h1
      | cons a r =>
        simp only [List.length_cons] at this ⊢
        omega
  by_cases hall : allHardlinked fs (c :: rest) = true
  · rw [if_pos (hcond.2 hall), if_pos hall]
    rfl
  · rw [if_neg (fun h => hall (hcond.1 h)), if_neg hall]
    rfl

/-- The planner loop over entries whose groups are non-empty and whose non-canonical
members can be stat'ed. -/
theorem plannerLoop_spec (fs : FS) (es : List (String × List String)) :
    ∀ (m : GoMap String (List String)) (sp : Int), wrapInt64 sp = sp →
      (∀ e ∈ es, e.2 ≠ [] ∧ ∀ p ∈ e.2.tail, (Stat fs p).isSome) →
      plannerLoop fs es (m, sp) =
        .ok (es.foldl (fun m e => if allHardlinked fs e.2 = true then goDelete m e.1 else m) m,
             wrapInt64 (sp + reclaimable fs es)) := by
  induction es with
  | nil =>
    intro m sp hsp _
    simp [plannerLoop, reclaimable, hsp]
  | cons e es ih =>
    intro m sp hsp h
    obtain ⟨k, v⟩ := e
    have hv := h (k, v) (List.mem_cons_self _ _)
    cases v with
    | nil => exact absurd rfl hv.1
    | cons c rest =>
      rw [plannerLoop, plannerStep_spec fs m sp k c rest hsp (by simpa using hv.2)]
      simp only []
      rw [ih _ _ (wrapInt64_idem _) (fun e he => h e (List.mem_cons_of_mem _ he)),
        wrapInt64_wrap_add]
      simp only [List.foldl_cons, reclaimable, List.map_cons, List.sum_cons]
      refine congrArg Except.ok (congrArg (Prod.mk _) (congrArg wrapInt64 ?_))
      push_cast
      omega

theorem reclaimable_perm (fs : FS) {es m : List (String × List String)} (h : es.Perm m) :
    reclaimable fs es = reclaimable fs m :=
  (h.map _).sum_eq

/-- The planner on a map of non-empty groups whose non-canonical members can be
stat'ed: it returns, keeps the groups that are not all hardlinks of their first
member unchanged, and computes the reclaimable total modulo the `int64` wrap. -/
theorem planner_spec (ord : RangeOrder) (fs : FS) (cl : GoMap String (List String))
    (hp : (ord.plan cl).Perm cl) (hkeys : (goKeys cl).Nodup)
    (h : ∀ e ∈ cl, e.2 ≠ [] ∧ ∀ p ∈ e.2.tail, (Stat fs p).isSome) :
    planner ord fs cl =
      .ok (cl.filter (fun e => !allHardlinked fs e.2), wrapInt64 (reclaimable fs cl)) := by
  unfold planner
  rw [plannerLoop_spec fs _ _ _ (by unfold wrapInt64; omega)
    (fun e he => h e (hp.mem_iff.1 he))]
  rw [foldl_goDelete_self (fun e => allHardlinked fs e.2) hp hkeys, reclaimable_perm fs hp]
  simp

theorem RangeOrder.stored_valid : RangeOrder.stored.Valid :=
  ⟨fun _ => List.Perm.refl _, fun _ => List.Perm.refl _, fun _ => List.Perm.refl _,
    fun _ => List.Perm.refl _, fun _ => List.Perm.refl _⟩

theorem RangeOrder.reversed_valid : RangeOrder.reversed.Valid :=
  ⟨fun _ => List.reverse_perm _, fun _ => List.reverse_perm _, fun _ => List.reverse_perm _,
    fun _ => List.reverse_perm _, fun _ => List.reverse_perm _⟩

/-- C2, as stated, fails: the group `[a, b, c]` of three separate, stat-able files of
2^63 - 1 bytes each has 2^64 - 2 reclaimable bytes, but the `int64` variable
`spaceFreed` wraps and the planner returns -2. -/
theorem planner_total_wraps :
    (∀ e ∈ [("z", ["a", "b", "c"])], ∀ p ∈ e.2, (Stat fsHuge p).isSome) ∧
    planner RangeOrder.stored fsHuge [("z", ["a", "b", "c"])] =
      .ok ([("z", ["a", "b", "c"])], -2) ∧
    reclaimable fsHuge [("z", ["a", "b", "c"])] = 18446744073709551614 :=
  ⟨by decide, rfl, rfl⟩

/-- C2, amended: for every map of non-empty digest groups entering the planner and
every filesystem state in which every member can be stat'ed, the planner returns and
the total it computes is the sum, over all groups, of the sizes of the members at list
indices from 1 on that are not the same underlying file as the first member of their
group (`reclaimable`, each position counted once, hardlinks of the first member
contributing nothing), wrapped to the `int64` range of `spaceFreed`; it is that sum
itself whenever the sum is below 2^63. -/
theorem planner_total_eq_reclaimable (ord : RangeOrder) (fs : FS)
    (cl : GoMap String (List String)) (hord : ord.Valid)
    (hne : ∀ e ∈ cl, e.2 ≠ []) (hstat : ∀ e ∈ cl, ∀ p ∈ e.2, (Stat fs p).isSome) :
    ∃ groups total, planner ord fs cl = .ok (groups, total) ∧
      total = wrapInt64 (reclaimable fs cl) ∧
      (reclaimable fs cl < 2 ^ 63 → total = reclaimable fs cl) := by
  have hp := hord.2.2.1 cl
  have hloop := plannerLoop_spec fs (ord.plan cl) cl 0 (by unfold wrapInt64; omega)
    (fun e he => ⟨hne e (hp.mem_iff.1 he),
      fun p hp' => hstat e (hp.mem_iff.1 he) p (List.mem_of_mem_tail hp')⟩)
  refine ⟨_, _, hloop, ?_, ?_⟩
  · rw [reclaimable_perm fs hp]; simp
  · intro hfit
    rw [reclaimable_perm fs hp, Int.zero_add]
    exact wrapInt64_of_fits (Int.natCast_nonneg _) (by exact_mod_cast hfit)

/-- Witness for the amended C2 on Scenario A: two separate 5-byte files in one group. -/
theorem planner_total_eq_reclaimable_witness :
    ∃ groups total,
      planner RangeOrder.stored fsScenarioA [("hello", ["a.txt", "b.txt"])] = .ok (groups, total) ∧
      total = wrapInt64 (reclaimable fsScenarioA [("hello", ["a.txt", "b.txt"])]) ∧
      (reclaimable fsScenarioA [("hello", ["a.txt", "b.txt"])] < 2 ^ 63 →
        total = reclaimable fsScenarioA [("hello", ["a.txt", "b.txt"])]) :=
  planner_total_eq_reclaimable RangeOrder.stored fsScenarioA [("hello", ["a.txt", "b.txt"])]
    RangeOrder.stored_valid (by decide) (by decide)

/-- C3: for every map of non-empty digest groups of stat-able paths and every group
of n >= 2 paths in it, the planner removes the group from the map if and only if every
non-canonical member is the same underlying file as the canonical member; a group
with a non-canonical member that is a different underlying file is retained, unchanged. -/
theorem planner_drops_iff_all_hardlinked (ord : RangeOrder) (fs : FS)
    (cl : GoMap String (List String)) (hord : ord.Valid) (hkeys : (goKeys cl).Nodup)
    (hne : ∀ e ∈ cl, e.2 ≠ []) (hstat : ∀ e ∈ cl, ∀ p ∈ e.2, (Stat fs p).isSome) :
    ∃ groups total, planner ord fs cl = .ok (groups, total) ∧
      ∀ k c rest, (k, c :: rest) ∈ cl → rest ≠ [] →
        (goGet groups k = none ↔ ∀ p ∈ rest, sameAs fs c p = true) ∧
        ((∃ p ∈ rest, sameAs fs c p = false) → goGet groups k = some (c :: rest)) := by
  have hspec := planner_spec ord fs cl (hord.2.2.1 cl) hkeys
    (fun e he => ⟨hne e he, fun p hp' => hstat e he p (List.mem_of_mem_tail hp')⟩)
  refine ⟨_, _, hspec, ?_⟩
  intro k c rest hmem hrest
  have hfk : (goKeys (cl.filter (fun e => !allHardlinked fs e.2))).Nodup :=
    List.Nodup.sublist (List.Sublist.map _ (List.filter_sublist _)) hkeys
  have hall : allHardlinked fs (c :: rest) = true ↔ ∀ p ∈ rest, sameAs fs c p = true := by
    cases rest with
    | nil => exact absurd rfl hrest
    | cons a r => simp [allHardlinked]
  constructor
  · rw [goGet_eq_none_iff, ← hall]
    constructor
    · intro hk
      by_contra hnot
      apply hk
      refine List.mem_map.2 ⟨(k, c :: rest), List.mem_filter.2 ⟨hmem, ?_⟩, rfl⟩
      simpa using hnot
    · intro hyes hk
      obtain ⟨e, he, hek⟩ := List.mem_map.1 hk
      obtain ⟨he1, he2⟩ := List.mem_filter.1 he
      have := key_unique hkeys he1 hmem hek
      rw [this] at he2
      simp [hyes] at he2
  · rintro ⟨p, hp, hpne⟩
    apply goGet_of_mem hfk
    refine List.mem_filter.2 ⟨hmem, ?_⟩
    have : ¬ allHardlinked fs (c :: rest) = true := by
      rw [hall]
      intro h
      rw [h p hp] at hpne
      exact Bool.noConfusion hpne
    simpa using this

/-- Witness for C3 on Scenario B: the group of two hardlinked paths is removed. -/
theorem planner_drops_iff_all_hardlinked_witness :
    ∃ groups total,
      planner RangeOrder.stored fsScenarioB [("hello", ["a.txt", "b.txt"])] = .ok (groups, total) ∧
      ∀ k c rest, (k, c :: rest) ∈ [("hello", ["a.txt", "b.txt"])] → rest ≠ [] →
        (goGet groups k = none ↔ ∀ p ∈ rest, sameAs fsScenarioB c p = true) ∧
        ((∃ p ∈ rest, sameAs fsScenarioB c p = false) → goGet groups k = some (c :: rest)) :=
  planner_drops_iff_all_hardlinked RangeOrder.stored fsScenarioB [("hello", ["a.txt", "b.txt"])]
    RangeOrder.stored_valid (by decide) (by decide) (by decide)

/-! ## Filesystem lemmas -/

theorem stat_eq_some_iff (fs : FS) (p : String) (f : FileInfo) :
    Stat fs p = some f ↔
      ∃ i, fs.entry p = some i ∧ f = ⟨i, (fs.inode i).size, (fs.inode i).regular⟩ := by
  unfold Stat
  cases h : fs.entry p with
  | none => simp
  | some i => simp [eq_comm]

theorem stat_isSome_iff (fs : FS) (p : String) : (Stat fs p).isSome ↔ (fs.entry p).isSome := by
  unfold Stat
  cases h : fs.entry p <;> simp

theorem sameFile_stat_iff (fs : FS) (p q : String) :
    SameFile (Stat fs p) (Stat fs q) = true ↔ (fs.entry p).isSome ∧ fs.entry p = fs.entry q := by
  unfold Stat
  cases hp : fs.entry p <;> cases hq : fs.entry q <;> simp [SameFile]

theorem sameAs_iff (fs : FS) (c p : String) :
    sameAs fs c p = true ↔ (fs.entry c).isSome ∧ fs.entry c = fs.entry p :=
  sameFile_stat_iff fs c p

theorem regularOfSize_iff (fs : FS) (p : String) (s : Nat) :
    regularOfSize fs p s = true ↔ ∃ f, Stat fs p = some f ∧ f.regular = true ∧ f.size = s := by
  unfold regularOfSize
  cases h : Stat fs p with
  | none => simp
  | some f => simp

theorem regularOfSize_entry {fs : FS} {p : String} {s : Nat} (h : regularOfSize fs p s = true) :
    (fs.entry p).isSome := by
  obtain ⟨f, hf, -⟩ := (regularOfSize_iff fs p s).1 h
  rw [← stat_isSome_iff, hf]; rfl

theorem regularOfSize_unique {fs : FS} {p : String} {s t : Nat}
    (h : regularOfSize fs p s = true) (h' : regularOfSize fs p t = true) : s = t := by
  obtain ⟨f, hf, -, hs⟩ := (regularOfSize_iff fs p s).1 h
  obtain ⟨f', hf', -, ht⟩ := (regularOfSize_iff fs p t).1 h'
  rw [hf] at hf'
  injection hf' with e
  rw [← hs, ← ht, e]

/-! ## Stage 1 lemmas -/

theorem goSet_idem {κ ν : Type} [DecidableEq κ] (m : GoMap κ ν) (k : κ) (v : ν) :
    goSet (goSet m k v) k v = goSet m k v := by
  induction m with
  | nil => simp [goSet]
  | cons e m ih =>
    obtain ⟨k0, v0⟩ := e
    by_cases h : k0 = k
    · simp [goSet, h]
    · simp [goSet, h, ih]

theorem foldl_cond_idem {α β : Type} (g : β → β) (hg : ∀ b, g (g b) = g b) (c : α → Bool)
    (l : List α) (b : β) :
    l.foldl (fun b k => if c k = true then g b else b) b = if l.any c = true then g b else b := by
  induction l generalizing b with
  | nil => simp
  | cons a l ih =>
    rw [List.foldl_cons, ih]
    by_cases ha : c a = true
    · simp [ha, hg]
    · simp [ha]

/-- The closure `check` in closed form. -/
theorem check_eq (fs : FS) (sl : GoMap Nat (GoMap String Bool)) (path : String) :
    check fs sl path =
      match Stat fs path with
      | none => sl
      | some f =>
        if f.regular = true then
          match goGet sl f.size with
          | none => goSet sl f.size [(path, true)]
          | some bucket =>
            goSet sl f.size
              (if (goKeys bucket).any (fun k => !SameFile (some f) (Stat fs k)) = true
                then goSet bucket path true else bucket)
        else sl := by
  unfold check
  cases hst : Stat fs path with
  | none => rfl
  | some f =>
    simp only []
    by_cases hr : f.regular = true
    · simp only [hr, if_true]
      cases hg : goGet sl f.size with
      | none => simp [goSet]
      | some bucket =>
        simp only []
        rw [foldl_cond_idem (fun b => goSet b path true) (fun b => goSet_idem b path true)]
    · simp [hr]

theorem WalkInv.skip {fs : FS} {visited : List String} {sl : GoMap Nat (GoMap String Bool)}
    (h : WalkInv fs visited sl) (a : String) (ha : ∀ s, regularOfSize fs a s = false) :
    WalkInv fs (visited ++ [a]) sl where
  keys := h.keys
  bkeys := h.bkeys
  sound := fun s b hb p hp => ⟨List.mem_append_left _ (h.sound s b hb p hp).1, (h.sound s b hb p hp).2⟩
  repr := by
    intro p hp s hs
    rcases List.mem_append.1 hp with hp | hp
    · exact h.repr p hp s hs
    · rw [List.mem_singleton] at hp
      rw [hp, ha s] at hs
      exact Bool.noConfusion hs
  twoFiles := h.twoFiles

theorem WalkInv.step {fs : FS} {visited : List String} {sl : GoMap Nat (GoMap String Bool)}
    (h : WalkInv fs visited sl) (a : String) : WalkInv fs (visited ++ [a]) (check fs sl a) := by
  rw [check_eq]
  cases hst : Stat fs a with
  | none =>
    exact h.skip a (fun s => by simp [regularOfSize, hst])
  | some f =>
    simp only []
    by_cases hr : f.regular = true
    swap
    · simp only [hr]
      exact h.skip a (fun s => by simp [regularOfSize, hst, hr])
    simp only [hr, if_true]
    have hcand : regularOfSize fs a f.size = true := by simp [regularOfSize, hst, hr]
    have hsize : ∀ s, regularOfSize fs a s = true → s = f.size :=
      fun s hs => regularOfSize_unique hs hcand
    -- the new bucket `nb` for size `f.size`
    suffices hsuff : ∀ nb : GoMap String Bool,
        ((goKeys nb).Nodup ∧ nb ≠ []) →
        (∀ p ∈ goKeys nb, p = a ∨ ∃ b, goGet sl f.size = some b ∧ p ∈ goKeys b) →
        (∀ b, goGet sl f.size = some b → ∀ p ∈ goKeys b, p ∈ goKeys nb) →
        (∃ q ∈ goKeys nb, fs.entry q = fs.entry a) →
        (2 ≤ nb.length → ∃ p ∈ goKeys nb, ∃ q ∈ goKeys nb, fs.entry p ≠ fs.entry q) →
        WalkInv fs (visited ++ [a]) (goSet sl f.size nb) by
      cases hg : goGet sl f.size with
      | none =>
        simp only []
        refine hsuff [(a, true)] ⟨by simp [goKeys], by simp⟩ ?_ ?_ ?_ ?_
        · intro p hp
          left
          simpa [goKeys] using hp
        · intro b hb
          rw [hg] at hb
          exact Option.noConfusion hb
        · exact ⟨a, by simp [goKeys], rfl⟩
        · intro h2
          simp at h2
      | some bucket =>
        simp only []
        obtain ⟨hbn, hbne⟩ := h.bkeys _ _ hg
        by_cases hany : (goKeys bucket).any (fun k => !SameFile (some f) (Stat fs k)) = true
        · simp only [hany, if_true]
          obtain ⟨k, hk, hkd⟩ := List.any_eq_true.1 hany
          have hkent : fs.entry k ≠ fs.entry a := by
            intro e
            have hs : SameFile (Stat fs a) (Stat fs k) = true :=
              (sameFile_stat_iff fs a k).2 ⟨regularOfSize_entry hcand, e.symm⟩
            rw [hst] at hs
            simp [hs] at hkd
          refine hsuff _ ⟨nodup_goKeys_goSet hbn a true, ?_⟩ ?_ ?_ ?_ ?_
          · intro e
            have : a ∈ goKeys (goSet bucket a true) := (mem_goKeys_goSet _ _ _ _).2 (Or.inl rfl)
            rw [e] at this
            simp [goKeys] at this
          · intro p hp
            rcases (mem_goKeys_goSet _ _ _ _).1 hp with hp | hp
            · exact Or.inl hp
            · exact Or.inr ⟨bucket, hg, hp⟩
          · intro b hb p hp
            rw [hg] at hb
            injection hb with hb
            subst hb
            exact (mem_goKeys_goSet _ _ _ _).2 (Or.inr hp)
          · exact ⟨a, (mem_goKeys_goSet _ _ _ _).2 (Or.inl rfl), rfl⟩
          · intro _
            exact ⟨k, (mem_goKeys_goSet _ _ _ _).2 (Or.inr hk), a,
              (mem_goKeys_goSet _ _ _ _).2 (Or.inl rfl), hkent⟩
        · simp only [hany]
          have hall : ∀ k ∈ goKeys bucket, fs.entry k = fs.entry a := by
            intro k hk
            have : ¬ (!SameFile (some f) (Stat fs k)) = true := by
              intro hc
              exact hany (List.any_eq_true.2 ⟨k, hk, hc⟩)
            have hs : SameFile (Stat fs a) (Stat fs k) = true := by
              rw [hst]; simpa using this
            exact ((sameFile_stat_iff fs a k).1 hs).2.symm
          refine hsuff bucket ⟨hbn, hbne⟩ ?_ ?_ ?_ ?_
          · intro p hp
            exact Or.inr ⟨bucket, hg, hp⟩
          · intro b hb p hp
            rw [hg] at hb
            injection hb with hb
            subst hb
            exact hp
          · cases hbk : bucket with
            | nil => exact absurd hbk hbne
            | cons e r =>
              refine ⟨e.1, by simp [goKeys], ?_⟩
              apply hall
              rw [hbk]
              simp [goKeys]
          · exact h.twoFiles _ _ hg
    intro nb hnb hfrom hkeep hrep hdiv
    refine ⟨nodup_goKeys_goSet h.keys _ _, ?_, ?_, ?_, ?_⟩
    · intro s b hb
      rw [goGet_goSet] at hb
      by_cases hs : f.size = s
      · simp only [hs, if_true] at hb
        injection hb with hb
        subst hb
        exact hnb
      · simp only [hs, if_false] at hb
        exact h.bkeys s b hb
    · intro s b hb p hp
      rw [goGet_goSet] at hb
      by_cases hs : f.size = s
      · simp only [hs, if_true] at hb
        injection hb with hb
        subst hb
        subst hs
        rcases hfrom p hp with hpa | ⟨b0, hb0, hp0⟩
        · subst hpa
          exact ⟨by simp, hcand⟩
        · have := h.sound _ _ hb0 p hp0
          exact ⟨List.mem_append_left _ this.1, this.2⟩
      · simp only [hs, if_false] at hb
        have := h.sound s b hb p hp
        exact ⟨List.mem_append_left _ this.1, this.2⟩
    · intro p hp s hs
      rw [goGet_goSet]
      rcases List.mem_append.1 hp with hp | hp
      · obtain ⟨b, hb, q, hq, hqe⟩ := h.repr p hp s hs
        by_cases hsz : f.size = s
        · subst hsz
          simp only [if_true]
          exact ⟨nb, rfl, q, hkeep b hb q hq, hqe⟩
        · simp only [hsz, if_false]
          exact ⟨b, hb, q, hq, hqe⟩
      · rw [List.mem_singleton] at hp
        subst hp
        have := hsize s hs
        subst this
        simp only [if_true]
        obtain ⟨q, hq, hqe⟩ := hrep
        exact ⟨nb, rfl, q, hq, hqe⟩
    · intro s b hb h2
      rw [goGet_goSet] at hb
      by_cases hs : f.size = s
      · simp only [hs, if_true] at hb
        injection hb with hb
        subst hb
        exact hdiv h2
      · simp only [hs, if_false] at hb
        exact h.twoFiles s b hb h2

/-- The invariant holds of the size map after the walk. -/
theorem walkAll_inv (fs : FS) (visited : List String) :
    WalkInv fs visited (walkAll fs visited) := by
  induction visited using List.reverseRecOn with
  | nil =>
    refine ⟨by simp [walkAll, goKeys], ?_, ?_, ?_, ?_⟩ <;> simp [walkAll, goGet]
  | append_singleton l a ih =>
    have : walkAll fs (l ++ [a]) = check fs (walkAll fs l) a := by
      simp [walkAll, List.foldl_append]
    rw [this]
    exact ih.step a

theorem dropSingleBuckets_eq {sl : GoMap Nat (GoMap String Bool)} (h : (goKeys sl).Nodup) :
    dropSingleBuckets sl = sl.filter (fun e => !decide (e.2.length = 1)) := by
  have := foldl_goDelete_self (fun e : Nat × GoMap String Bool => decide (e.2.length = 1))
    (List.Perm.refl sl) h
  simpa [dropSingleBuckets] using this

theorem dropSingleGroups_eq {cl : GoMap String (List String)} (h : (goKeys cl).Nodup) :
    dropSingleGroups cl = cl.filter (fun e => !decide (e.2.length = 1)) := by
  have := foldl_goDelete_self (fun e : String × List String => decide (e.2.length = 1))
    (List.Perm.refl cl) h
  simpa [dropSingleGroups] using this

theorem nodup_goKeys_filter {κ ν : Type} {m : GoMap κ ν} (h : (goKeys m).Nodup)
    (c : κ × ν → Bool) : (goKeys (m.filter c)).Nodup :=
  List.Nodup.sublist (List.Sublist.map _ (List.filter_sublist _)) h

/-- The size candidates: the buckets of the walk with at least two members. -/
theorem mem_sizeStage_iff (fs : FS) (visited : List String) (s : Nat) (b : GoMap String Bool) :
    (s, b) ∈ sizeStage fs visited ↔ goGet (walkAll fs visited) s = some b ∧ 2 ≤ b.length := by
  have hinv := walkAll_inv fs visited
  unfold sizeStage
  rw [dropSingleBuckets_eq hinv.keys, List.mem_filter, ← goGet_iff_mem hinv.keys]
  constructor
  · rintro ⟨h1, h2⟩
    refine ⟨h1, ?_⟩
    have hne := (hinv.bkeys s b h1).2
    have : b.length ≠ 1 := by simpa using h2
    have : b.length ≠ 0 := fun h0 => hne (List.length_eq_zero.1 h0)
    omega
  · rintro ⟨h1, h2⟩
    refine ⟨h1, ?_⟩
    have : b.length ≠ 1 := by omega
    simpa using this

theorem nodup_goKeys_sizeStage (fs : FS) (visited : List String) :
    (goKeys (sizeStage fs visited)).Nodup := by
  unfold sizeStage
  rw [dropSingleBuckets_eq (walkAll_inv fs visited).keys]
  exact nodup_goKeys_filter (walkAll_inv fs visited).keys _

/-! ## Stage 2 lemmas -/

theorem goSet_goSet {κ ν : Type} [DecidableEq κ] (m : GoMap κ ν) (k : κ) (v v' : ν) :
    goSet (goSet m k v) k v' = goSet m k v' := by
  induction m with
  | nil => simp [goSet]
  | cons e m ih =>
    obtain ⟨k0, v0⟩ := e
    by_cases h : k0 = k
    · simp [goSet, h]
    · simp [goSet, h, ih]

/-- The closure `checksum` in closed form. -/
theorem checksum_eq (md5sum : String → String) (fs : FS) (cl : GoMap String (List String))
    (p : String) :
    checksum md5sum fs cl p =
      match digestOf md5sum fs p with
      | none => cl
      | some c => goSet cl c ((goGet cl c).getD [] ++ [p]) := by
  unfold checksum digestOf
  cases hr : ReadFile fs p with
  | none => rfl
  | some data =>
    simp only [Option.map_some']
    cases hg : goGet cl (md5sum data) with
    | none => simp [goGet_goSet, goSet_goSet]
    | some v => simp [hg]

theorem foldl_flatMap {α β γ : Type} (f : γ → β → γ) (g : α → List β) (L : List α) (init : γ) :
    L.foldl (fun acc e => (g e).foldl f acc) init = (L.flatMap g).foldl f init := by
  induction L generalizing init with
  | nil => rfl
  | cons a L ih => simp [List.flatMap_cons, List.foldl_append, ih]

theorem checksumAll_eq (md5sum : String → String) (ord : RangeOrder) (fs : FS)
    (sl : GoMap Nat (GoMap String Bool)) :
    checksumAll md5sum ord fs sl = (hashSeq ord sl).foldl (checksum md5sum fs) [] := by
  unfold checksumAll hashSeq
  rw [← foldl_flatMap]
  congr 1
  funext cl e
  rw [List.foldl_map]

theorem foldl_checksum_keys (md5sum : String → String) (fs : FS) (seq : List String) :
    ∀ cl : GoMap String (List String), (goKeys cl).Nodup →
      (goKeys (seq.foldl (checksum md5sum fs) cl)).Nodup := by
  induction seq with
  | nil => intro cl h; exact h
  | cons p seq ih =>
    intro cl h
    rw [List.foldl_cons]
    apply ih
    rw [checksum_eq]
    cases digestOf md5sum fs p with
    | none => exact h
    | some c => exact nodup_goKeys_goSet h _ _

/-- Grouping by digest: the group of digest `d` after hashing the paths `seq` is
what it was before followed by the paths of `seq` with digest `d`, in order. -/
theorem foldl_checksum_get (md5sum : String → String) (fs : FS) (seq : List String) (d : String) :
    ∀ cl : GoMap String (List String),
      goGet (seq.foldl (checksum md5sum fs) cl) d =
        match goGet cl d with
        | none =>
          if seq.filter (fun p => decide (digestOf md5sum fs p = some d)) = [] then none
          else some (seq.filter (fun p => decide (digestOf md5sum fs p = some d)))
        | some v => some (v ++ seq.filter (fun p => decide (digestOf md5sum fs p = some d))) := by
  induction seq with
  | nil =>
    intro cl
    simp only [List.foldl_nil, List.filter_nil, List.append_nil, if_true]
    cases goGet cl d <;> rfl
  | cons p seq ih =>
    intro cl
    rw [List.foldl_cons, ih, checksum_eq]
    cases hdp : digestOf md5sum fs p with
    | none =>
      have hf : List.filter (fun p => decide (digestOf md5sum fs p = some d)) (p :: seq) =
          List.filter (fun p => decide (digestOf md5sum fs p = some d)) seq := by
        simp [List.filter_cons, hdp]
      rw [hf]
    | some c =>
      simp only [goGet_goSet]
      by_cases hcd : c = d
      · subst hcd
        have hf : List.filter (fun p => decide (digestOf md5sum fs p = some c)) (p :: seq) =
            p :: List.filter (fun p => decide (digestOf md5sum fs p = some c)) seq := by
          simp [List.filter_cons, hdp]
        rw [hf]
        simp only [if_true]
        cases goGet cl c with
        | none => simp
        | some v => simp
      · have hf : List.filter (fun p => decide (digestOf md5sum fs p = some d)) (p :: seq) =
            List.filter (fun p => decide (digestOf md5sum fs p = some d)) seq := by
          simp [List.filter_cons, hdp, hcd]
        rw [hf]
        simp only [hcd, if_false]

/-- The checksum candidates: for each digest carried by at least two of the hashed
paths, the hashed paths with that digest, in hashing order. -/
theorem mem_checksumStage_iff (md5sum : String → String) (ord : RangeOrder) (fs : FS)
    (visited : List String) (d : String) (v : List String) :
    (d, v) ∈ checksumStage md5sum ord fs visited ↔
      v = (hashSeq ord (sizeStage fs visited)).filter
            (fun p => decide (digestOf md5sum fs p = some d)) ∧ 2 ≤ v.length := by
  unfold checksumStage
  have hk : (goKeys (checksumAll md5sum ord fs (sizeStage fs visited))).Nodup := by
    rw [checksumAll_eq]
    exact foldl_checksum_keys md5sum fs _ [] (by simp [goKeys])
  rw [dropSingleGroups_eq hk, List.mem_filter, ← goGet_iff_mem hk, checksumAll_eq,
    foldl_checksum_get]
  simp only [goGet]
  constructor
  · rintro ⟨h1, h2⟩
    split_ifs at h1 with h0
    injection h1 with h1
    refine ⟨h1.symm, ?_⟩
    have hl : v.length ≠ 1 := by simpa using h2
    have : v.length ≠ 0 := fun e => h0 (h1 ▸ List.length_eq_zero.1 e)
    omega
  · rintro ⟨h1, h2⟩
    have hne : v ≠ [] := fun e => by rw [e] at h2; simp at h2
    refine ⟨?_, ?_⟩
    · rw [← h1, if_neg hne]
    · have : v.length ≠ 1 := by omega
      simpa using this

theorem nodup_goKeys_checksumStage (md5sum : String → String) (ord : RangeOrder) (fs : FS)
    (visited : List String) : (goKeys (checksumStage md5sum ord fs visited)).Nodup := by
  unfold checksumStage
  have hk : (goKeys (checksumAll md5sum ord fs (sizeStage fs visited))).Nodup := by
    rw [checksumAll_eq]
    exact foldl_checksum_keys md5sum fs _ [] (by simp [goKeys])
  rw [dropSingleGroups_eq hk]
  exact nodup_goKeys_filter hk _

theorem mem_hashSeq_iff {ord : RangeOrder} (hord : ord.Valid)
    (sl : GoMap Nat (GoMap String Bool)) (p : String) :
    p ∈ hashSeq ord sl ↔ ∃ e ∈ sl, p ∈ goKeys e.2 := by
  unfold hashSeq
  rw [List.mem_flatMap]
  constructor
  · rintro ⟨e, he, hp⟩
    exact ⟨e, (hord.1 sl).mem_iff.1 he, ((hord.2.1 e.2).map Prod.fst).mem_iff.1 hp⟩
  · rintro ⟨e, he, hp⟩
    exact ⟨e, (hord.1 sl).mem_iff.2 he, ((hord.2.1 e.2).map Prod.fst).mem_iff.2 hp⟩

/-- A hashed path is a member of a surviving size bucket: it was visited, it is a regular
file of the size of its bucket, and the bucket has another member. -/
theorem mem_hashSeq_sizeStage {ord : RangeOrder} (hord : ord.Valid) (fs : FS)
    (visited : List String) (p : String) :
    p ∈ hashSeq ord (sizeStage fs visited) ↔
      ∃ s b, goGet (walkAll fs visited) s = some b ∧ 2 ≤ b.length ∧ p ∈ goKeys b := by
  rw [mem_hashSeq_iff hord]
  constructor
  · rintro ⟨⟨s, b⟩, he, hp⟩
    obtain ⟨h1, h2⟩ := (mem_sizeStage_iff fs visited s b).1 he
    exact ⟨s, b, h1, h2, hp⟩
  · rintro ⟨s, b, h1, h2, hp⟩
    exact ⟨(s, b), (mem_sizeStage_iff fs visited s b).2 ⟨h1, h2⟩, hp⟩

/-- No path is hashed twice. -/
theorem nodup_hashSeq {ord : RangeOrder} (hord : ord.Valid) (fs : FS) (visited : List String) :
    (hashSeq ord (sizeStage fs visited)).Nodup := by
  have hinv := walkAll_inv fs visited
  unfold hashSeq
  rw [List.nodup_flatMap]
  constructor
  · intro e he
    have he' := (hord.1 _).mem_iff.1 he
    obtain ⟨s, b⟩ := e
    obtain ⟨h1, -⟩ := (mem_sizeStage_iff fs visited s b).1 he'
    exact (((hord.2.1 b).map Prod.fst).nodup_iff).2 (hinv.bkeys s b h1).1
  · have hkeys : ((ord.sizes (sizeStage fs visited)).map Prod.fst).Nodup :=
      (((hord.1 _).map Prod.fst).nodup_iff).2 (nodup_goKeys_sizeStage fs visited)
    have hpw : List.Pairwise (fun e e' : Nat × GoMap String Bool => e.1 ≠ e'.1)
        (ord.sizes (sizeStage fs visited)) := by
      unfold List.Nodup at hkeys
      rw [List.pairwise_map] at hkeys
      exact hkeys
    refine List.Pairwise.imp_of_mem ?_ hpw
    intro e e' he he' hne
    obtain ⟨s, b⟩ := e
    obtain ⟨s', b'⟩ := e'
    obtain ⟨h1, -⟩ := (mem_sizeStage_iff fs visited s b).1 ((hord.1 _).mem_iff.1 he)
    obtain ⟨h1', -⟩ := (mem_sizeStage_iff fs visited s' b').1 ((hord.1 _).mem_iff.1 he')
    intro p hp hp'
    have hp1 := ((hord.2.1 b).map Prod.fst).mem_iff.1 hp
    have hp2 := ((hord.2.1 b').map Prod.fst).mem_iff.1 hp'
    exact hne (regularOfSize_unique (hinv.sound s b h1 p hp1).2 (hinv.sound s' b' h1' p hp2).2)

theorem digestOf_entry {md5sum : String → String} {fs : FS} {p d : String}
    (h : digestOf md5sum fs p = some d) : (fs.entry p).isSome := by
  unfold digestOf ReadFile at h
  cases he : fs.entry p with
  | none => simp [he] at h
  | some i => rfl

theorem digestOf_congr {md5sum : String → String} {fs : FS} {p q : String}
    (h : fs.entry p = fs.entry q) : digestOf md5sum fs p = digestOf md5sum fs q := by
  unfold digestOf ReadFile
  rw [h]

/-- Members of a checksum candidate group: hashed paths whose digest is the key. -/
theorem mem_group {md5sum : String → String} {ord : RangeOrder} {fs : FS}
    {visited : List String} {d : String} {v : List String}
    (h : (d, v) ∈ checksumStage md5sum ord fs visited) (p : String) :
    p ∈ v ↔ p ∈ hashSeq ord (sizeStage fs visited) ∧ digestOf md5sum fs p = some d := by
  obtain ⟨hv, -⟩ := (mem_checksumStage_iff md5sum ord fs visited d v).1 h
  rw [hv, List.mem_filter]
  simp

theorem group_nodup {md5sum : String → String} {ord : RangeOrder} (hord : ord.Valid) {fs : FS}
    {visited : List String} {d : String} {v : List String}
    (h : (d, v) ∈ checksumStage md5sum ord fs visited) : v.Nodup := by
  obtain ⟨hv, -⟩ := (mem_checksumStage_iff md5sum ord fs visited d v).1 h
  rw [hv]
  exact (nodup_hashSeq hord fs visited).filter _

theorem group_length {md5sum : String → String} {ord : RangeOrder} {fs : FS}
    {visited : List String} {d : String} {v : List String}
    (h : (d, v) ∈ checksumStage md5sum ord fs visited) : 2 ≤ v.length :=
  ((mem_checksumStage_iff md5sum ord fs visited d v).1 h).2

theorem two_le_length_of_mem {α : Type} {l : List α} {a b : α} (ha : a ∈ l) (hb : b ∈ l)
    (hab : a ≠ b) : 2 ≤ l.length := by
  match l, ha, hb with
  | [], ha, _ => simp at ha
  | [x], ha, hb =>
    simp only [List.mem_singleton] at ha hb
    exact absurd (ha.trans hb.symm) hab
  | _ :: _ :: _, _, _ => simp

/-- Two different hashed paths with the same digest are members of one checksum
candidate group. -/
theorem group_complete {md5sum : String → String} {ord : RangeOrder} {fs : FS}
    {visited : List String} {d p q : String}
    (hp : p ∈ hashSeq ord (sizeStage fs visited)) (hq : q ∈ hashSeq ord (sizeStage fs visited))
    (hdp : digestOf md5sum fs p = some d) (hdq : digestOf md5sum fs q = some d) (hpq : p ≠ q) :
    ∃ v, (d, v) ∈ checksumStage md5sum ord fs visited ∧ p ∈ v ∧ q ∈ v := by
  refine ⟨_, (mem_checksumStage_iff md5sum ord fs visited d _).2 ⟨rfl, ?_⟩, ?_, ?_⟩
  · refine two_le_length_of_mem (a := p) (b := q) ?_ ?_ hpq
    · exact List.mem_filter.2 ⟨hp, by simp [hdp]⟩
    · exact List.mem_filter.2 ⟨hq, by simp [hdq]⟩
  · exact List.mem_filter.2 ⟨hp, by simp [hdp]⟩
  · exact List.mem_filter.2 ⟨hq, by simp [hdq]⟩

/-- On the filesystem that was scanned the planner does not panic: it keeps the
groups that are not all hardlinks of their first member. -/
theorem planner_checksumStage (md5sum : String → String) {ord : RangeOrder} (hord : ord.Valid)
    (fs : FS) (visited : List String) :
    planner ord fs (checksumStage md5sum ord fs visited) =
      .ok ((checksumStage md5sum ord fs visited).filter (fun e => !allHardlinked fs e.2),
           wrapInt64 (reclaimable fs (checksumStage md5sum ord fs visited))) := by
  apply planner_spec ord fs _ (hord.2.2.1 _) (nodup_goKeys_checksumStage md5sum ord fs visited)
  rintro ⟨d, v⟩ he
  refine ⟨?_, ?_⟩
  · intro e
    have := group_length he
    simp only at e
    rw [e] at this
    simp at this
  · intro p hp
    have hpv : p ∈ v := List.mem_of_mem_tail hp
    rw [stat_isSome_iff]
    exact digestOf_entry ((mem_group he p).1 hpv).2

/-! ## The run -/

/-- The groups the planner leaves on the scanned filesystem. -/
theorem run_report (dryrun : Bool) (md5sum : String → String) {ord : RangeOrder}
    (hord : ord.Valid) (fs : FS) (visited : List String)
    (hs : sizeStage fs visited ≠ []) (hc : checksumStage md5sum ord fs visited ≠ []) :
    ∃ r, (run dryrun md5sum ord fs visited).report? = some r ∧
      r.sizeGroups = (sizeStage fs visited).length ∧
      r.checksumGroups = (checksumStage md5sum ord fs visited).length ∧
      r.groups = (ord.listing ((checksumStage md5sum ord fs visited).filter
        (fun e => !allHardlinked fs e.2))).map Prod.snd ∧
      r.spaceFreed = wrapInt64 (reclaimable fs (checksumStage md5sum ord fs visited)) := by
  have h1 : ¬ (sizeStage fs visited).length = 0 := fun e => hs (List.length_eq_zero.1 e)
  have h2 : ¬ (checksumStage md5sum ord fs visited).length = 0 :=
    fun e => hc (List.length_eq_zero.1 e)
  unfold run
  simp only [h1, h2, if_false, planner_checksumStage md5sum hord fs visited]
  cases dryrun with
  | true => exact ⟨_, rfl, rfl, rfl, rfl, rfl⟩
  | false =>
    simp only [Bool.false_eq_true, if_false]
    cases linker ord fs (List.filter (fun e => !allHardlinked fs e.2)
        (checksumStage md5sum ord fs visited)) with
    | error a => exact ⟨_, rfl, rfl, rfl, rfl, rfl⟩
    | ok st => exact ⟨_, rfl, rfl, rfl, rfl, rfl⟩

/-- When all regular files the walk visits are one underlying file, no size bucket
survives. -/
theorem sizeStage_eq_nil_of_one_file (fs : FS) (visited : List String)
    (h : ∀ p ∈ visited, ∀ q ∈ visited, ∀ s t, regularOfSize fs p s = true →
      regularOfSize fs q t = true → fs.entry p = fs.entry q) :
    sizeStage fs visited = [] := by
  rw [List.eq_nil_iff_forall_not_mem]
  rintro ⟨s, b⟩ hmem
  obtain ⟨h1, h2⟩ := (mem_sizeStage_iff fs visited s b).1 hmem
  have hinv := walkAll_inv fs visited
  obtain ⟨p, hp, q, hq, hne⟩ := hinv.twoFiles s b h1 h2
  have hp' := hinv.sound s b h1 p hp
  have hq' := hinv.sound s b h1 q hq
  exact hne (h p hp'.1 q hq'.1 s s hp'.2 hq'.2)

/-! ## Linker lemmas -/

theorem remove_eq_some {fs fs1 : FS} {p : String} (h : Remove fs p = some fs1) :
    (fs.entry p).isSome ∧ fs1.inode = fs.inode ∧
      ∀ q, fs1.entry q = if q = p then none else fs.entry q := by
  unfold Remove at h
  cases he : fs.entry p with
  | none => simp [he] at h
  | some i =>
    simp only [he, Option.some.injEq] at h
    subst h
    exact ⟨rfl, rfl, fun q => rfl⟩

theorem remove_of_isSome {fs : FS} {p : String} (h : (fs.entry p).isSome) :
    ∃ fs1, Remove fs p = some fs1 := by
  unfold Remove
  cases he : fs.entry p with
  | none => simp [he] at h
  | some i => exact ⟨_, rfl⟩

theorem link_eq_some {fs fs2 : FS} {c p : String} (h : Link fs c p = some fs2) :
    (fs.entry c).isSome ∧ fs.entry p = none ∧ fs2.inode = fs.inode ∧
      ∀ q, fs2.entry q = if q = p then fs.entry c else fs.entry q := by
  unfold Link at h
  cases hc : fs.entry c with
  | none => simp [hc] at h
  | some i =>
    cases hp : fs.entry p with
    | some j => simp [hc, hp] at h
    | none =>
      simp only [hc, hp, Option.some.injEq] at h
      subst h
      exact ⟨rfl, rfl, rfl, fun q => rfl⟩

theorem link_of_isSome {fs : FS} {c p : String} (hc : (fs.entry c).isSome)
    (hp : fs.entry p = none) : ∃ fs2, Link fs c p = some fs2 := by
  unfold Link
  cases he : fs.entry c with
  | none => simp [he] at hc
  | some i => simp [hp]

/-- Removing a path and linking it to a different, existing path. -/
theorem remove_link {fs fs1 fs2 : FS} {c p : String} (hr : Remove fs p = some fs1)
    (hl : Link fs1 c p = some fs2) :
    c ≠ p ∧ (fs.entry c).isSome ∧ (fs.entry p).isSome ∧ fs2.inode = fs.inode ∧
      ∀ q, fs2.entry q = if q = p then fs.entry c else fs.entry q := by
  obtain ⟨hp, hi1, he1⟩ := remove_eq_some hr
  obtain ⟨hc, -, hi2, he2⟩ := link_eq_some hl
  have hcp : c ≠ p := by
    intro e
    rw [he1 c, if_pos e] at hc
    simp at hc
  have hc1 : fs1.entry c = fs.entry c := by rw [he1 c, if_neg hcp]
  refine ⟨hcp, hc1 ▸ hc, hp, hi2.trans hi1, ?_⟩
  intro q
  rw [he2 q, hc1, he1 q]
  by_cases hq : q = p <;> simp [hq]

/-- The trace lines of one group: its non-canonical members in reverse order. -/
theorem linkerInner_post (c : String) (rest : List String) (j : Nat) :
    ∀ (fs : FS) (tr : List Trace) (fs' : FS) (tr' : List Trace),
      linkerInner (c :: rest) c j (fs, tr) = .ok (fs', tr') → j ≤ rest.length →
      fs'.inode = fs.inode ∧
      (∀ q, fs'.entry q = if q ∈ rest.take j then fs.entry c else fs.entry q) ∧
      (c ∉ rest.take j) ∧
      (∀ p ∈ rest.take j, (fs.entry p).isSome) ∧
      (0 < j → (fs.entry c).isSome) ∧
      tr' = tr ++ (rest.take j).reverse.flatMap (fun p => [Trace.deleting p, Trace.linking c p]) := by
  induction j with
  | zero =>
    intro fs tr fs' tr' h _
    simp only [linkerInner, Except.ok.injEq, Prod.mk.injEq] at h
    obtain ⟨h1, h2⟩ := h
    subst h1 h2
    simp
  | succ j ih =>
    intro fs tr fs' tr' h hj
    have hjl : j < rest.length := by omega
    have hget : (c :: rest)[j + 1]? = some rest[j] := by
      rw [List.getElem?_cons_succ, List.getElem?_eq_getElem hjl]
    have htake : rest.take (j + 1) = rest.take j ++ [rest[j]] := by
      rw [List.take_succ, List.getElem?_eq_getElem hjl]; rfl
    rw [linkerInner, hget] at h
    simp only [] at h
    cases hr : Remove fs rest[j] with
    | none => simp [hr] at h
    | some fs1 =>
      simp only [hr] at h
      cases hl : Link fs1 c rest[j] with
      | none => simp [hl] at h
      | some fs2 =>
        simp only [hl] at h
        obtain ⟨hcp, hc, hp, hi, he⟩ := remove_link hr hl
        obtain ⟨ihi, ihe, ihc, ihp, -, iht⟩ := ih fs2 _ fs' tr' h (by omega)
        have hc2 : fs2.entry c = fs.entry c := by rw [he c, if_neg hcp]
        refine ⟨ihi.trans hi, ?_, ?_, ?_, fun _ => hc, ?_⟩
        · intro q
          have hmem : q ∈ rest.take (j + 1) ↔ q ∈ rest.take j ∨ q = rest[j] := by
            rw [htake, List.mem_append, List.mem_singleton]
          rw [ihe q, hc2, he q]
          by_cases hq1 : q ∈ rest.take j
          · rw [if_pos hq1, if_pos (hmem.2 (Or.inl hq1))]
          · by_cases hq2 : q = rest[j]
            · rw [if_neg hq1, if_pos hq2, if_pos (hmem.2 (Or.inr hq2))]
            · rw [if_neg hq1, if_neg hq2, if_neg (fun h => (hmem.1 h).elim hq1 hq2)]
        · rw [htake]
          intro hmem
          rcases List.mem_append.1 hmem with hm | hm
          · exact ihc hm
          · exact hcp (List.mem_singleton.1 hm)
        · intro p hpm
          rw [htake] at hpm
          rcases List.mem_append.1 hpm with hm | hm
          · have := ihp p hm
            rw [he p] at this
            by_cases hpe : p = rest[j]
            · rw [hpe]; exact hp
            · simpa [hpe] using this
          · rw [List.mem_singleton.1 hm]; exact hp
        · rw [iht, htake, List.reverse_append, List.reverse_singleton, List.singleton_append,
            List.flatMap_cons, List.append_assoc]

/-- The inner linker loop succeeds when the canonical path exists, is not among the
members to replace, and these exist. -/
theorem linkerInner_ok (c : String) (rest : List String) (j : Nat) :
    ∀ (fs : FS) (tr : List Trace), j ≤ rest.length → c ∉ rest.take j →
      (fs.entry c).isSome → (∀ p ∈ rest.take j, (fs.entry p).isSome) →
      ∃ fs' tr', linkerInner (c :: rest) c j (fs, tr) = .ok (fs', tr') := by
  induction j with
  | zero =>
    intro fs tr _ _ _ _
    exact ⟨fs, tr, rfl⟩
  | succ j ih =>
    intro fs tr hj hc hce hpe
    have hjl : j < rest.length := by omega
    have hget : (c :: rest)[j + 1]? = some rest[j] := by
      rw [List.getElem?_cons_succ, List.getElem?_eq_getElem hjl]
    have htake : rest.take (j + 1) = rest.take j ++ [rest[j]] := by
      rw [List.take_succ, List.getElem?_eq_getElem hjl]; rfl
    rw [htake] at hc hpe
    have hcp : c ≠ rest[j] := fun e => hc (List.mem_append_right _ (by simp [e]))
    obtain ⟨fs1, hr⟩ := remove_of_isSome (hpe rest[j] (List.mem_append_right _ (by simp)))
    obtain ⟨-, -, he1⟩ := remove_eq_some hr
    have hc1 : (fs1.entry c).isSome := by rw [he1 c, if_neg hcp]; exact hce
    obtain ⟨fs2, hl⟩ := link_of_isSome (p := rest[j]) hc1 (by rw [he1 rest[j], if_pos rfl])
    obtain ⟨-, -, -, -, he⟩ := remove_link hr hl
    rw [linkerInner, hget]
    simp only [hr, hl]
    apply ih fs2 _ (by omega) (fun hm => hc (List.mem_append_left _ hm))
    · rw [he c, if_neg hcp]; exact hce
    · intro p hp
      rw [he p]
      by_cases hpe' : p = rest[j]
      · simp [hpe', hce]
      · simpa [hpe'] using hpe p (List.mem_append_left _ hp)

/-- One linker iteration on the group `c :: rest` that ends without error: when the
canonical path exists every member of `rest` now refers to the inode of `c`. -/
theorem linkerStep_post {k c : String} {rest : List String} {fs fs1 : FS} {tr tr1 : List Trace}
    (h : linkerStep (fs, tr) (k, c :: rest) = .ok (fs1, tr1)) :
    fs1.inode = fs.inode ∧
    (∀ q, fs1.entry q = if (fs.entry c).isSome = true ∧ q ∈ rest then fs.entry c else fs.entry q) ∧
    ((fs.entry c).isSome = true → c ∉ rest ∧ ∀ p ∈ rest, (fs.entry p).isSome) ∧
    (∀ t ∈ tr1, t ∈ tr ∨ ∃ p ∈ rest, t = .deleting p ∨ t = .linking c p) := by
  simp only [linkerStep, List.getElem?_cons_zero, List.length_cons, Nat.add_sub_cancel] at h
  cases hst : Stat fs c with
  | none =>
    simp only [hst, Except.ok.injEq, Prod.mk.injEq] at h
    obtain ⟨h1, h2⟩ := h
    subst h1 h2
    have hc : ¬ (fs.entry c).isSome = true := by
      rw [← stat_isSome_iff, hst]; simp
    refine ⟨rfl, ?_, fun hx => absurd hx hc, fun t ht => Or.inl ht⟩
    intro q
    rw [if_neg (fun hx => hc hx.1)]
  | some f =>
    simp only [hst] at h
    have hc : (fs.entry c).isSome = true := by
      rw [← stat_isSome_iff, hst]; rfl
    obtain ⟨hi, he, hcn, hp, -, ht⟩ := linkerInner_post c rest rest.length fs tr fs1 tr1 h (le_refl _)
    rw [List.take_length] at he hcn hp ht
    refine ⟨hi, ?_, fun _ => ⟨hcn, hp⟩, ?_⟩
    · intro q
      rw [he q]
      by_cases hq : q ∈ rest
      · rw [if_pos hq, if_pos ⟨hc, hq⟩]
      · rw [if_neg hq, if_neg (fun hx => hq hx.2)]
    · intro t htm
      rw [ht] at htm
      rcases List.mem_append.1 htm with hm | hm
      · exact Or.inl hm
      · right
        obtain ⟨p, hp1, hp2⟩ := List.mem_flatMap.1 hm
        refine ⟨p, List.mem_reverse.1 hp1, ?_⟩
        simpa using hp2

theorem linkerStep_nil {k : String} {st : FS × List Trace} :
    linkerStep st (k, []) = .error .indexOutOfRange := rfl

/-- The linker loop that ends without error, on groups none of whose canonical paths
is a member to replace in any group. -/
theorem linkerLoop_post (es : List (String × List String)) :
    ∀ (fs : FS) (tr : List Trace) (fs' : FS) (tr' : List Trace),
      linkerLoop es (fs, tr) = .ok (fs', tr') →
      (∀ e ∈ es, ∀ e' ∈ es, ∀ c, e.2.head? = some c → c ∉ e'.2.tail) →
      fs'.inode = fs.inode ∧
      (∀ q, (∀ e ∈ es, q ∉ e.2.tail) → fs'.entry q = fs.entry q) ∧
      (∀ e ∈ es, ∀ c, e.2.head? = some c → (fs.entry c).isSome →
        ∀ q ∈ e.2.tail, (∀ e' ∈ es, q ∈ e'.2.tail → e' = e) → fs'.entry q = fs.entry c) ∧
      (∀ t ∈ tr', t ∈ tr ∨ ∃ e ∈ es, ∃ c, e.2.head? = some c ∧
        ∃ p ∈ e.2.tail, t = .deleting p ∨ t = .linking c p) := by
  induction es with
  | nil =>
    intro fs tr fs' tr' h _
    simp only [linkerLoop, Except.ok.injEq, Prod.mk.injEq] at h
    obtain ⟨h1, h2⟩ := h
    subst h1 h2
    simp
  | cons e0 es ih =>
    intro fs tr fs' tr' h hH
    obtain ⟨k0, v0⟩ := e0
    cases v0 with
    | nil => simp [linkerLoop, linkerStep_nil] at h
    | cons c0 rest0 =>
      rw [linkerLoop] at h
      cases hstep : linkerStep (fs, tr) (k0, c0 :: rest0) with
      | error a => simp [hstep] at h
      | ok st1 =>
        obtain ⟨fs1, tr1⟩ := st1
        simp only [hstep] at h
        obtain ⟨hi1, he1, -, ht1⟩ := linkerStep_post hstep
        have hH' : ∀ e ∈ es, ∀ e' ∈ es, ∀ c, e.2.head? = some c → c ∉ e'.2.tail :=
          fun e he e' he' => hH e (List.mem_cons_of_mem _ he) e' (List.mem_cons_of_mem _ he')
        obtain ⟨hi, hkeep, hlink, htr⟩ := ih fs1 tr1 fs' tr' h hH'
        -- canonical paths are untouched by the first step
        have hcanon : ∀ e ∈ (k0, c0 :: rest0) :: es, ∀ c, e.2.head? = some c →
            fs1.entry c = fs.entry c := by
          intro e he c hc
          rw [he1 c, if_neg]
          rintro ⟨-, hm⟩
          exact hH e he (k0, c0 :: rest0) (List.mem_cons_self _ _) c hc hm
        -- members of a later group
        have hlater : ∀ e ∈ es, ∀ c, e.2.head? = some c → (fs.entry c).isSome →
            ∀ q ∈ e.2.tail, (∀ e' ∈ es, q ∈ e'.2.tail → e' = e) → fs'.entry q = fs.entry c := by
          intro e he c hc hce q hq huniq
          have hc1 := hcanon e (List.mem_cons_of_mem _ he) c hc
          rw [hlink e he c hc (hc1 ▸ hce) q hq huniq, hc1]
        refine ⟨hi.trans hi1, ?_, ?_, ?_⟩
        · intro q hq
          rw [hkeep q (fun e he => hq e (List.mem_cons_of_mem _ he)), he1 q, if_neg]
          rintro ⟨-, hm⟩
          exact hq (k0, c0 :: rest0) (List.mem_cons_self _ _) hm
        · intro e he c hc hce q hq huniq
          rcases List.mem_cons.1 he with he | he
          · subst he
            simp only [List.head?_cons, Option.some.injEq] at hc
            subst hc
            simp only [List.tail_cons] at hq
            by_cases hex : ∃ e' ∈ es, q ∈ e'.2.tail
            · obtain ⟨e', he', hq'⟩ := hex
              have hee := huniq e' (List.mem_cons_of_mem _ he') hq'
              subst hee
              exact hlater _ he' c0 rfl hce q hq
                (fun e'' he'' hq'' => huniq e'' (List.mem_cons_of_mem _ he'') hq'')
            · have hnone : ∀ e' ∈ es, q ∉ e'.2.tail := fun e' he' hq' => hex ⟨e', he', hq'⟩
              rw [hkeep q hnone, he1 q, if_pos ⟨hce, hq⟩]
          · exact hlater e he c hc hce q hq
              (fun e' he' hq' => huniq e' (List.mem_cons_of_mem _ he') hq')
        · intro t ht
          rcases htr t ht with ht | ⟨e, he, c, hc, p, hp, hpt⟩
          · rcases ht1 t ht with ht | ⟨p, hp, hpt⟩
            · exact Or.inl ht
            · exact Or.inr ⟨(k0, c0 :: rest0), List.mem_cons_self _ _, c0, rfl, p, hp, hpt⟩
          · exact Or.inr ⟨e, List.mem_cons_of_mem _ he, c, hc, p, hp, hpt⟩

/-- The linker loop ends without error when every member of every group exists and
no group lists its canonical path among the members to replace. -/
theorem linkerLoop_ok (es : List (String × List String)) :
    ∀ (fs : FS) (tr : List Trace),
      (∀ e ∈ es, e.2 ≠ [] ∧ ∀ p ∈ e.2, (fs.entry p).isSome) →
      (∀ e ∈ es, ∀ c, e.2.head? = some c → c ∉ e.2.tail) →
      ∃ fs' tr', linkerLoop es (fs, tr) = .ok (fs', tr') := by
  induction es with
  | nil =>
    intro fs tr _ _
    exact ⟨fs, tr, rfl⟩
  | cons e0 es ih =>
    intro fs tr hex hc
    obtain ⟨k0, v0⟩ := e0
    have h0 := hex (k0, v0) (List.mem_cons_self _ _)
    cases v0 with
    | nil => exact absurd rfl h0.1
    | cons c0 rest0 =>
      have hc0 : c0 ∉ rest0 := hc (k0, c0 :: rest0) (List.mem_cons_self _ _) c0 rfl
      have hce : (fs.entry c0).isSome := h0.2 c0 (List.mem_cons_self _ _)
      obtain ⟨f, hf⟩ := Option.isSome_iff_exists.1 ((stat_isSome_iff fs c0).2 hce)
      obtain ⟨fs1, tr1, hin⟩ := linkerInner_ok c0 rest0 rest0.length fs tr (le_refl _)
        (by rw [List.take_length]; exact hc0) hce
        (by rw [List.take_length]; exact fun p hp => h0.2 p (List.mem_cons_of_mem _ hp))
      have hstep : linkerStep (fs, tr) (k0, c0 :: rest0) = .ok (fs1, tr1) := by
        simp only [linkerStep, List.getElem?_cons_zero, List.length_cons, Nat.add_sub_cancel, hf]
        exact hin
      obtain ⟨-, he1, -, -⟩ := linkerStep_post hstep
      have hpres : ∀ q, (fs.entry q).isSome → (fs1.entry q).isSome := by
        intro q hq
        rw [he1 q]
        by_cases hx : (fs.entry c0).isSome = true ∧ q ∈ rest0
        · rw [if_pos hx]; exact hce
        · rw [if_neg hx]; exact hq
      obtain ⟨fs', tr', hrest⟩ := ih fs1 tr1
        (fun e he => ⟨(hex e (List.mem_cons_of_mem _ he)).1,
          fun p hp => hpres p ((hex e (List.mem_cons_of_mem _ he)).2 p hp)⟩)
        (fun e he => hc e (List.mem_cons_of_mem _ he))
      refine ⟨fs', tr', ?_⟩
      rw [linkerLoop, hstep]
      exact hrest

/-! ## Paths occur once across the digest groups -/

/-- A path belongs to at most one checksum candidate group. -/
theorem group_unique {md5sum : String → String} {ord : RangeOrder} {fs : FS}
    {visited : List String} {e e' : String × List String}
    (he : e ∈ checksumStage md5sum ord fs visited) (he' : e' ∈ checksumStage md5sum ord fs visited)
    {p : String} (hp : p ∈ e.2) (hp' : p ∈ e'.2) : e = e' := by
  obtain ⟨d, v⟩ := e
  obtain ⟨d', v'⟩ := e'
  have h1 := ((mem_group he p).1 hp).2
  have h2 := ((mem_group he' p).1 hp').2
  rw [h1] at h2
  exact key_unique (nodup_goKeys_checksumStage md5sum ord fs visited) he he' (Option.some.inj h2)

theorem head_not_mem_tail {l : List String} (h : l.Nodup) {c : String} (hc : l.head? = some c) :
    c ∉ l.tail := by
  cases l with
  | nil => simp at hc
  | cons a r =>
    simp only [List.head?_cons, Option.some.injEq] at hc
    subst hc
    exact (List.nodup_cons.1 h).1

theorem mem_of_head? {l : List String} {c : String} (hc : l.head? = some c) : c ∈ l := by
  cases l with
  | nil => simp at hc
  | cons a r =>
    simp only [List.head?_cons, Option.some.injEq] at hc
    simp [hc]

/-- No canonical path of a checksum candidate group is a non-canonical member of a
group. -/
theorem canonical_not_member {md5sum : String → String} {ord : RangeOrder} (hord : ord.Valid)
    {fs : FS} {visited : List String} {e e' : String × List String}
    (he : e ∈ checksumStage md5sum ord fs visited) (he' : e' ∈ checksumStage md5sum ord fs visited)
    {c : String} (hc : e.2.head? = some c) : c ∉ e'.2.tail := by
  intro hm
  have hee := group_unique he he' (mem_of_head? hc) (List.mem_of_mem_tail hm)
  subst hee
  exact head_not_mem_tail (group_nodup hord he) hc hm

/-- Every path occurs at most once across all checksum candidate groups. -/
theorem nodup_checksumStage_paths (md5sum : String → String) {ord : RangeOrder}
    (hord : ord.Valid) (fs : FS) (visited : List String) :
    ((checksumStage md5sum ord fs visited).map Prod.snd).flatten.Nodup := by
  rw [List.nodup_flatten]
  constructor
  · intro l hl
    obtain ⟨e, he, rfl⟩ := List.mem_map.1 hl
    exact group_nodup hord he
  · rw [List.pairwise_map]
    have hkeys := nodup_goKeys_checksumStage md5sum ord fs visited
    unfold goKeys List.Nodup at hkeys
    rw [List.pairwise_map] at hkeys
    refine List.Pairwise.imp_of_mem ?_ hkeys
    intro e e' he he' hne p hp hp'
    exact hne (congrArg Prod.fst (group_unique he he' hp hp'))

theorem sublist_flatten {α : Type} {l1 l2 : List (List α)} (h : List.Sublist l1 l2) :
    List.Sublist l1.flatten l2.flatten := by
  induction h with
  | slnil => simp
  | cons a _ ih =>
    rw [List.flatten_cons]
    exact ih.trans (List.sublist_append_right _ _)
  | cons₂ a _ ih =>
    rw [List.flatten_cons, List.flatten_cons]
    exact List.Sublist.append (List.Sublist.refl _) ih

theorem plannedGroups_eq (md5sum : String → String) {ord : RangeOrder} (hord : ord.Valid)
    (fs : FS) (visited : List String) :
    plannedGroups md5sum ord fs visited =
      (checksumStage md5sum ord fs visited).filter (fun e => !allHardlinked fs e.2) := by
  unfold plannedGroups
  rw [planner_checksumStage md5sum hord fs visited]

theorem mem_plannedGroups {md5sum : String → String} {ord : RangeOrder} (hord : ord.Valid)
    {fs : FS} {visited : List String} {e : String × List String}
    (he : e ∈ plannedGroups md5sum ord fs visited) :
    e ∈ checksumStage md5sum ord fs visited := by
  rw [plannedGroups_eq md5sum hord] at he
  exact (List.mem_filter.1 he).1

/-- Every path occurs at most once across the groups left by the planner. -/
theorem nodup_plannedGroups_paths (md5sum : String → String) {ord : RangeOrder}
    (hord : ord.Valid) (fs : FS) (visited : List String) :
    ((plannedGroups md5sum ord fs visited).map Prod.snd).flatten.Nodup := by
  rw [plannedGroups_eq md5sum hord]
  refine List.Nodup.sublist ?_ (nodup_checksumStage_paths md5sum hord fs visited)
  exact sublist_flatten (List.Sublist.map _ (List.filter_sublist _))

/-- The apply run on a static filesystem never stops at a delete or link error. -/
theorem run_apply (md5sum : String → String) {ord : RangeOrder} (hord : ord.Valid) (fs : FS)
    (visited : List String)
    (hs : sizeStage fs visited ≠ []) (hc : checksumStage md5sum ord fs visited ≠ []) :
    ∃ fs' tr, linker ord fs (plannedGroups md5sum ord fs visited) = .ok (fs', tr) ∧
      run false md5sum ord fs visited =
        .applied ⟨(sizeStage fs visited).length, (checksumStage md5sum ord fs visited).length,
          (ord.listing (plannedGroups md5sum ord fs visited)).map Prod.snd,
          wrapInt64 (reclaimable fs (checksumStage md5sum ord fs visited))⟩ fs' tr := by
  have h1 : ¬ (sizeStage fs visited).length = 0 := fun e => hs (List.length_eq_zero.1 e)
  have h2 : ¬ (checksumStage md5sum ord fs visited).length = 0 :=
    fun e => hc (List.length_eq_zero.1 e)
  have hmem : ∀ e ∈ ord.link (plannedGroups md5sum ord fs visited),
      e ∈ checksumStage md5sum ord fs visited :=
    fun e he => mem_plannedGroups hord ((hord.2.2.2.2 _).mem_iff.1 he)
  obtain ⟨fs', tr', hok⟩ := linkerLoop_ok (ord.link (plannedGroups md5sum ord fs visited)) fs []
    (by
      rintro ⟨d, v⟩ he
      have hg := hmem _ he
      refine ⟨?_, fun p hp => digestOf_entry ((mem_group hg p).1 hp).2⟩
      intro e
      have := group_length hg
      simp only at e
      rw [e] at this
      simp at this)
    (fun e he c hc' => head_not_mem_tail (group_nodup hord (hmem e he)) hc')
  refine ⟨fs', tr', hok, ?_⟩
  have hpl := planner_checksumStage md5sum hord fs visited
  rw [plannedGroups_eq md5sum hord] at hok ⊢
  unfold run
  simp only [h1, h2, if_false, hpl, Bool.false_eq_true, linker, hok]

/-! ## Second run after an apply run -/

theorem groupReclaimable_zero {fs : FS} {v : List String} (h : allHardlinked fs v = true) :
    groupReclaimable fs v = 0 := by
  cases v with
  | nil => rfl
  | cons c rest =>
    simp only [allHardlinked, Bool.and_eq_true, List.all_eq_true] at h
    have : rest.filter (fun p => !sameAs fs c p) = [] := by
      rw [List.filter_eq_nil_iff]
      intro p hp
      simp [h.2 p hp]
    simp [groupReclaimable, this]

theorem reclaimable_zero {fs : FS} {cl : GoMap String (List String)}
    (h : ∀ e ∈ cl, allHardlinked fs e.2 = true) : reclaimable fs cl = 0 := by
  unfold reclaimable
  apply List.sum_eq_zero
  intro x hx
  obtain ⟨e, he, rfl⟩ := List.mem_map.1 hx
  exact groupReclaimable_zero (h e he)

/-- A group with at least two members all of which are one existing file. -/
theorem allHardlinked_of_same_entry {fs : FS} {v : List String} (hlen : 2 ≤ v.length)
    (hsome : ∀ p ∈ v, (fs.entry p).isSome) (hsame : ∀ p ∈ v, ∀ q ∈ v, fs.entry p = fs.entry q) :
    allHardlinked fs v = true := by
  cases v with
  | nil => simp at hlen
  | cons c rest =>
    simp only [allHardlinked, Bool.and_eq_true, List.all_eq_true]
    constructor
    · cases rest with
      | nil => simp at hlen
      | cons a r => rfl
    · intro p hp
      exact (sameAs_iff fs c p).2 ⟨hsome c (List.mem_cons_self _ _),
        hsame c (List.mem_cons_self _ _) p (List.mem_cons_of_mem _ hp)⟩

/-- A hashed path was visited, is a regular file, and shares its size with another
visited regular file. -/
theorem hashSeq_sound {ord : RangeOrder} (hord : ord.Valid) {fs : FS} {visited : List String}
    {p : String} (hp : p ∈ hashSeq ord (sizeStage fs visited)) :
    p ∈ visited ∧ ∃ s, regularOfSize fs p s = true ∧
      ∃ r ∈ visited, r ≠ p ∧ regularOfSize fs r s = true := by
  obtain ⟨s, b, h1, h2, h3⟩ := (mem_hashSeq_sizeStage hord fs visited p).1 hp
  have hinv := walkAll_inv fs visited
  obtain ⟨hpv, hps⟩ := hinv.sound s b h1 p h3
  refine ⟨hpv, s, hps, ?_⟩
  have hnd := (hinv.bkeys s b h1).1
  -- another member of the bucket
  have hex : ∃ r ∈ goKeys b, r ≠ p := by
    by_contra hno
    have hall : ∀ r ∈ goKeys b, r = p := by
      intro r hr
      by_contra hne
      exact hno ⟨r, hr, hne⟩
    have hlen : (goKeys b).length = b.length := by simp [goKeys]
    match hk : goKeys b, hlen, hnd, hall with
    | [], hlen, _, _ => simp at hlen; omega
    | [x], hlen, _, _ => simp at hlen; omega
    | x :: y :: l, _, hnd, hall =>
      have hx := hall x (by simp)
      have hy := hall y (by simp)
      rw [hx, hy] at hnd
      simp at hnd
  obtain ⟨r, hr, hrp⟩ := hex
  obtain ⟨hrv, hrs⟩ := hinv.sound s b h1 r hr
  exact ⟨r, hrv, hrp, hrs⟩

/-- Without pre-existing hardlinks among the visited files, every visited regular
file that shares its size with another visited regular file is hashed. -/
theorem hashSeq_complete {ord : RangeOrder} (hord : ord.Valid) {fs : FS} {visited : List String}
    (hna : NoAlias fs visited) {p r : String} {s : Nat} (hp : p ∈ visited) (hr : r ∈ visited)
    (hps : regularOfSize fs p s = true) (hrs : regularOfSize fs r s = true) (hrp : r ≠ p) :
    p ∈ hashSeq ord (sizeStage fs visited) := by
  have hinv := walkAll_inv fs visited
  obtain ⟨b, hb, p', hp', hpe⟩ := hinv.repr p hp s hps
  obtain ⟨b', hb', r', hr', hre⟩ := hinv.repr r hr s hrs
  rw [hb] at hb'
  injection hb' with hb'
  subst hb'
  have hp'' := hinv.sound s b hb p' hp'
  have hr'' := hinv.sound s b hb r' hr'
  have e1 : p' = p := hna p' hp''.1 p hp s s hp''.2 hps hpe
  have e2 : r' = r := hna r' hr''.1 r hr s s hr''.2 hrs hre
  subst e1 e2
  have hlen : 2 ≤ b.length := by
    have := two_le_length_of_mem hr' hp' hrp
    simpa [goKeys] using this
  exact (mem_hashSeq_sizeStage hord fs visited p').2 ⟨s, b, hb, hlen, hp'⟩

/-- Without pre-existing hardlinks among the visited files the planner keeps every
checksum candidate group. -/
theorem plannedGroups_of_noAlias (md5sum : String → String) {ord : RangeOrder}
    (hord : ord.Valid) {fs : FS} {visited : List String} (hna : NoAlias fs visited) :
    plannedGroups md5sum ord fs visited = checksumStage md5sum ord fs visited := by
  rw [plannedGroups_eq md5sum hord, List.filter_eq_self]
  rintro ⟨d, v⟩ he
  have hnd := group_nodup hord he
  have hlen := group_length he
  match v, he, hnd, hlen with
  | [], _, _, hlen => simp at hlen
  | [x], _, _, hlen => simp at hlen
  | c :: p :: rest, he, hnd, _ =>
    have hc := hashSeq_sound hord ((mem_group he c).1 (by simp)).1
    have hp := hashSeq_sound hord ((mem_group he p).1 (by simp)).1
    obtain ⟨hcv, s, hcs, -⟩ := hc
    obtain ⟨hpv, t, hpt, -⟩ := hp
    have hcp : c ≠ p := by
      intro e
      rw [e] at hnd
      simp at hnd
    have : sameAs fs c p = false := by
      by_contra hs
      have hs' : sameAs fs c p = true := by simpa using hs
      exact hcp (hna c hcv p hpv s t hcs hpt ((sameAs_iff fs c p).1 hs').2)
    simp [allHardlinked, this]

theorem regularOfSize_transfer {fs fs' : FS} (hi : fs'.inode = fs.inode) {x cx : String}
    (he : fs'.entry x = fs.entry cx) (s : Nat) :
    regularOfSize fs' x s = regularOfSize fs cx s := by
  unfold regularOfSize Stat
  rw [he, hi]

theorem digestOf_transfer (md5sum : String → String) {fs fs' : FS} (hi : fs'.inode = fs.inode)
    {x cx : String} (he : fs'.entry x = fs.entry cx) :
    digestOf md5sum fs' x = digestOf md5sum fs cx := by
  unfold digestOf ReadFile
  rw [he, hi]

theorem linkedFrom_nil (fs : FS) : LinkedFrom fs fs [] :=
  ⟨rfl, fun x => ⟨x, rfl, by simp, Or.inl rfl⟩⟩

theorem head?_of_mem_not_tail {l : List String} {x : String} (hx : x ∈ l) (ht : x ∉ l.tail) :
    l.head? = some x := by
  cases l with
  | nil => simp at hx
  | cons a r =>
    rcases List.mem_cons.1 hx with h | h
    · rw [h]; rfl
    · exact absurd h ht

/-- The filesystem left by the linker on the checksum candidate groups. -/
theorem linkedFrom_linker (md5sum : String → String) {ord : RangeOrder} (hord : ord.Valid)
    {fs fs' : FS} {visited : List String} {tr : List Trace}
    (hl : linker ord fs (checksumStage md5sum ord fs visited) = .ok (fs', tr)) :
    LinkedFrom fs fs' (checksumStage md5sum ord fs visited) := by
  have hmem : ∀ e, e ∈ ord.link (checksumStage md5sum ord fs visited) ↔
      e ∈ checksumStage md5sum ord fs visited := fun e => (hord.2.2.2.2 _).mem_iff
  obtain ⟨hi, hkeep, hlink, -⟩ := linkerLoop_post _ fs [] fs' tr hl
    (fun e he e' he' c hc =>
      canonical_not_member hord ((hmem e).1 he) ((hmem e').1 he') hc)
  refine ⟨hi, ?_⟩
  intro x
  by_cases hx : ∃ e ∈ checksumStage md5sum ord fs visited, x ∈ e.2.tail
  · obtain ⟨e, he, hxt⟩ := hx
    obtain ⟨d, v⟩ := e
    cases v with
    | nil => simp at hxt
    | cons c rest =>
      have hce : (fs.entry c).isSome :=
        digestOf_entry ((mem_group he c).1 (List.mem_cons_self _ _)).2
      refine ⟨c, ?_, ?_, Or.inr ⟨(d, c :: rest), he, rfl, hxt⟩⟩
      · exact hlink (d, c :: rest) ((hmem _).2 he) c rfl hce x hxt
          (fun e' he' hx' => group_unique ((hmem e').1 he') he
            (List.mem_of_mem_tail hx') (List.mem_of_mem_tail hxt))
      · intro e' he'
        exact canonical_not_member hord he he' rfl
  · refine ⟨x, ?_, ?_, Or.inl rfl⟩
    · exact hkeep x (fun e he hxt => hx ⟨e, (hmem e).1 he, hxt⟩)
    · intro e he hxt
      exact hx ⟨e, he, hxt⟩

/-- After linking, without hardlinks among the visited files beforehand, every
digest group of a second scan consists of hardlinks of one file. -/
theorem second_scan_groups_linked (md5sum : String → String) {ord1 ord2 : RangeOrder}
    (h1 : ord1.Valid) (h2 : ord2.Valid) {fs fs' : FS} {visited : List String}
    (hna : NoAlias fs visited)
    (hl : LinkedFrom fs fs' (checksumStage md5sum ord1 fs visited)) :
    ∀ e ∈ checksumStage md5sum ord2 fs' visited, allHardlinked fs' e.2 = true := by
  rintro ⟨d, w⟩ he
  obtain ⟨hi, hcan⟩ := hl
  -- every member of the group stems from a path hashed in the first run
  have key : ∀ x, x ∈ hashSeq ord2 (sizeStage fs' visited) → digestOf md5sum fs' x = some d →
      ∃ cx, fs'.entry x = fs.entry cx ∧ cx ∈ hashSeq ord1 (sizeStage fs visited) ∧
        digestOf md5sum fs cx = some d ∧
        ∀ e ∈ checksumStage md5sum ord1 fs visited, cx ∉ e.2.tail := by
    intro x hxs hxd
    obtain ⟨cx, hent, hnt, hcase⟩ := hcan x
    refine ⟨cx, hent, ?_, (digestOf_transfer md5sum hi hent) ▸ hxd, hnt⟩
    rcases hcase with hcx | ⟨e, he1, hhead, -⟩
    · subst hcx
      obtain ⟨hxv, s, hxs', r, hrv, hrx, hrs⟩ := hashSeq_sound h2 hxs
      rw [regularOfSize_transfer hi hent] at hxs'
      obtain ⟨cr, hrent, -, hrcase⟩ := hcan r
      rw [regularOfSize_transfer hi hrent] at hrs
      rcases hrcase with hcr | ⟨e, he1, hhead, hrt⟩
      · subst hcr
        exact hashSeq_complete h1 hna hxv hrv hxs' hrs hrx
      · have hcrs : cr ∈ hashSeq ord1 (sizeStage fs visited) :=
          ((mem_group he1 cr).1 (mem_of_head? hhead)).1
        by_cases hcrx : cr = cx
        · rw [← hcrx]; exact hcrs
        · exact hashSeq_complete h1 hna hxv (hashSeq_sound h1 hcrs).1 hxs' hrs hcrx
    · exact ((mem_group he1 cx).1 (mem_of_head? hhead)).1
  apply allHardlinked_of_same_entry (group_length he)
  · intro p hp
    exact digestOf_entry ((mem_group he p).1 hp).2
  · intro p hp q hq
    obtain ⟨hps, hpd⟩ := (mem_group he p).1 hp
    obtain ⟨hqs, hqd⟩ := (mem_group he q).1 hq
    obtain ⟨cp, hpe, hcps, hcpd, hcpt⟩ := key p hps hpd
    obtain ⟨cq, hqe, hcqs, hcqd, hcqt⟩ := key q hqs hqd
    have hc : cp = cq := by
      by_contra hne
      obtain ⟨v, hv, hpv, hqv⟩ := group_complete hcps hcqs hcpd hcqd hne
      have e1 := head?_of_mem_not_tail hpv (hcpt _ hv)
      have e2 := head?_of_mem_not_tail hqv (hcqt _ hv)
      rw [e1] at e2
      exact hne (Option.some.inj e2)
    rw [hpe, hqe, hc]

theorem checksumStage_eq_nil_of_sizeStage {md5sum : String → String} {ord : RangeOrder}
    (hord : ord.Valid) {fs : FS} {visited : List String} (hs : sizeStage fs visited = []) :
    checksumStage md5sum ord fs visited = [] := by
  rw [List.eq_nil_iff_forall_not_mem]
  rintro ⟨d, v⟩ he
  have hlen := group_length he
  cases v with
  | nil => simp at hlen
  | cons c rest =>
    have := ((mem_group he c).1 (List.mem_cons_self _ _)).1
    rw [mem_hashSeq_iff hord, hs] at this
    simp at this

/-- The dry run on a static filesystem, past both early exits. -/
theorem run_dry (md5sum : String → String) {ord : RangeOrder} (hord : ord.Valid) (fs : FS)
    (visited : List String)
    (hs : sizeStage fs visited ≠ []) (hc : checksumStage md5sum ord fs visited ≠ []) :
    run true md5sum ord fs visited =
      .dryRun ⟨(sizeStage fs visited).length, (checksumStage md5sum ord fs visited).length,
        (ord.listing (plannedGroups md5sum ord fs visited)).map Prod.snd,
        wrapInt64 (reclaimable fs (checksumStage md5sum ord fs visited))⟩ := by
  have h1 : ¬ (sizeStage fs visited).length = 0 := fun e => hs (List.length_eq_zero.1 e)
  have h2 : ¬ (checksumStage md5sum ord fs visited).length = 0 :=
    fun e => hc (List.length_eq_zero.1 e)
  have hpl := planner_checksumStage md5sum hord fs visited
  rw [plannedGroups_eq md5sum hord]
  unfold run
  simp only [h1, h2, if_false, hpl, if_true]

/-! ## Scenario B and the size pre-filter -/

/-- C6, as stated, fails: on Scenario B (`b.txt` a hardlink of `a.txt`) the dry run
does not report 1 size group, 1 checksum group, 0 duplicate groups and 0 bytes. -/
theorem scenarioB_report_refuted :
    ¬ ∃ r, run true id RangeOrder.stored fsScenarioB ["a.txt", "b.txt"] = .dryRun r ∧
      r.sizeGroups = 1 ∧ r.checksumGroups = 1 ∧ r.groups = [] ∧ r.spaceFreed = 0 := by
  rintro ⟨r, h, -⟩
  have h2 : run true id RangeOrder.stored fsScenarioB ["a.txt", "b.txt"] =
      .noDuplicatesAfterSize := rfl
  rw [h2] at h
  exact Outcome.noConfusion h

/-- C6, amended: when `a.txt` and `b.txt` are hardlinks of one file and no other
visited path is a regular file, the run (in either mode, for every digest function,
visiting order and iteration order) ends right after size grouping with
"No duplicates found.": the hardlink pre-filter leaves one path in the size bucket
and the bucket is discarded, so no report figures are printed. -/
theorem scenarioB_no_duplicates_after_size (dryrun : Bool) (md5sum : String → String)
    (ord : RangeOrder) (fs : FS) (visited : List String) (i : Nat)
    (ha : fs.entry "a.txt" = some i) (hb : fs.entry "b.txt" = some i)
    (honly : ∀ p ∈ visited, p ≠ "a.txt" → p ≠ "b.txt" → ∀ s, regularOfSize fs p s = false) :
    run dryrun md5sum ord fs visited = .noDuplicatesAfterSize := by
  have hent : ∀ p ∈ visited, ∀ s, regularOfSize fs p s = true → fs.entry p = some i := by
    intro p hp s hs
    by_cases h1 : p = "a.txt"
    · rw [h1]; exact ha
    · by_cases h2 : p = "b.txt"
      · rw [h2]; exact hb
      · rw [honly p hp h1 h2 s] at hs
        exact Bool.noConfusion hs
  have hnil : sizeStage fs visited = [] :=
    sizeStage_eq_nil_of_one_file fs visited
      (fun p hp q hq s t hs ht => (hent p hp s hs).trans (hent q hq t ht).symm)
  unfold run
  simp [hnil]

/-- Witness for the amended C6 on Scenario B itself. -/
theorem scenarioB_no_duplicates_after_size_witness :
    run true id RangeOrder.stored fsScenarioB ["a.txt", "b.txt"] = .noDuplicatesAfterSize :=
  scenarioB_no_duplicates_after_size true id RangeOrder.stored fsScenarioB ["a.txt", "b.txt"] 1
    rfl rfl (by
      intro p hp h1 h2
      simp only [List.mem_cons, List.mem_singleton, List.mem_nil_iff, or_false] at hp
      rcases hp with hp | hp
      · exact absurd hp h1
      · exact absurd hp h2)

/-- C7, as stated, fails: with a digest function that collides (here a constant one),
the 1-byte file `a` and the 2-byte file `c` end up in the same digest group. -/
theorem same_group_distinct_sizes :
    ∃ g ∈ checksumStage (fun _ => "") RangeOrder.stored fsTwoSizes ["a", "b", "c", "d"],
      "a" ∈ g.2 ∧ "c" ∈ g.2 ∧ statSize fsTwoSizes "a" ≠ statSize fsTwoSizes "c" := by
  decide

/-- C7, amended: every member of a digest group has the digest of its group and comes
from a surviving size bucket (at least two members) keyed by its own byte size, for
every digest function; and for every digest function under which files of different
sizes never share a digest, any two paths of one digest group have identical byte
size. -/
theorem same_group_same_size (md5sum : String → String) (ord : RangeOrder) (fs : FS)
    (visited : List String) (hord : ord.Valid) :
    (∀ g ∈ checksumStage md5sum ord fs visited, ∀ p ∈ g.2,
      digestOf md5sum fs p = some g.1 ∧
        ∃ b, (statSize fs p, b) ∈ sizeStage fs visited ∧ 2 ≤ b.length ∧ p ∈ goKeys b) ∧
    ((∀ p q d, digestOf md5sum fs p = some d → digestOf md5sum fs q = some d →
        statSize fs p = statSize fs q) →
      ∀ g ∈ checksumStage md5sum ord fs visited, ∀ p ∈ g.2, ∀ q ∈ g.2,
        statSize fs p = statSize fs q) := by
  refine ⟨?_, ?_⟩
  · rintro ⟨d, v⟩ hg p hp
    obtain ⟨hseq, hd⟩ := (mem_group hg p).1 hp
    refine ⟨hd, ?_⟩
    obtain ⟨s, b, h1, h2, h3⟩ := (mem_hashSeq_sizeStage hord fs visited p).1 hseq
    have hreg := ((walkAll_inv fs visited).sound s b h1 p h3).2
    obtain ⟨f, hf, -, hfs⟩ := (regularOfSize_iff fs p s).1 hreg
    have hsz : statSize fs p = s := by simp [statSize, hf, hfs]
    rw [hsz]
    exact ⟨b, (mem_sizeStage_iff fs visited s b).2 ⟨h1, h2⟩, h2, h3⟩
  · rintro hcoll ⟨d, v⟩ hg p hp q hq
    exact hcoll p q d ((mem_group hg p).1 hp).2 ((mem_group hg q).1 hq).2

/-- Witness for the amended C7 with the identity as digest on two 1-byte files and two
2-byte files: `c` has the digest of its group and sits in the surviving bucket of
size 2, and the two members `c`, `d` of that group have the same size. -/
theorem same_group_same_size_witness :
    (digestOf id fsTwoPairs "c" = some "rr" ∧
      ∃ b, (statSize fsTwoPairs "c", b) ∈ sizeStage fsTwoPairs ["a", "b", "c", "d"] ∧
        2 ≤ b.length ∧ "c" ∈ goKeys b) ∧
    statSize fsTwoPairs "c" = statSize fsTwoPairs "d" :=
  ⟨(same_group_same_size id RangeOrder.stored fsTwoPairs ["a", "b", "c", "d"]
      RangeOrder.stored_valid).1 ("rr", ["c", "d"]) (by decide) "c" (by decide),
   (same_group_same_size id RangeOrder.stored fsTwoPairs ["a", "b", "c", "d"]
      RangeOrder.stored_valid).2 (by
        intro p q d hp hq
        have key : ∀ x e, digestOf id fsTwoPairs x = some e →
            (e = "p" ∧ statSize fsTwoPairs x = 1) ∨ (e = "rr" ∧ statSize fsTwoPairs x = 2) := by
          intro x e hx
          unfold digestOf ReadFile fsTwoPairs at hx
          unfold statSize Stat fsTwoPairs
          by_cases h1 : x = "a"
          · left; simpa [h1, eq_comm] using hx
          · by_cases h2 : x = "b"
            · left; simpa [h2, eq_comm] using hx
            · by_cases h3 : x = "c"
              · right; simpa [h3, eq_comm] using hx
              · by_cases h4 : x = "d"
                · right; simpa [h4, eq_comm] using hx
                · simp [h1, h2, h3, h4] at hx
        rcases key p d hp with ⟨e1, s1⟩ | ⟨e1, s1⟩ <;>
          rcases key q d hq with ⟨e2, s2⟩ | ⟨e2, s2⟩
        · rw [s1, s2]
        · rw [e1] at e2; exact absurd e2 (by decide)
        · rw [e1] at e2; exact absurd e2 (by decide)
        · rw [s1, s2])
      ("rr", ["c", "d"]) (by decide) "c" (by decide) "d" (by decide)⟩

/-! ## No duplicate is missed -/

/-- C10: for every visiting order and iteration order over a static filesystem, if
the walk visits two regular, readable files that are distinct underlying files with
equal size and equal content digest, then the run prints its report and the groups
listed in it contain one group holding a path of each of those two underlying files. -/
theorem no_duplicate_missed (dryrun : Bool) (md5sum : String → String) (ord : RangeOrder)
    (fs : FS) (visited : List String) (hord : ord.Valid) (p q d : String) (s : Nat)
    (hp : p ∈ visited) (hq : q ∈ visited)
    (hps : regularOfSize fs p s = true) (hqs : regularOfSize fs q s = true)
    (hdp : digestOf md5sum fs p = some d) (hdq : digestOf md5sum fs q = some d)
    (hne : fs.entry p ≠ fs.entry q) :
    ∃ r, (run dryrun md5sum ord fs visited).report? = some r ∧
      ∃ g ∈ r.groups, ∃ p' ∈ g, ∃ q' ∈ g,
        fs.entry p' = fs.entry p ∧ fs.entry q' = fs.entry q := by
  have hinv := walkAll_inv fs visited
  obtain ⟨b, hb, p', hp', hpe⟩ := hinv.repr p hp s hps
  obtain ⟨b', hb', q', hq', hqe⟩ := hinv.repr q hq s hqs
  rw [hb] at hb'
  injection hb' with hb'
  subst hb'
  have hpq : p' ≠ q' := by
    intro e
    apply hne
    rw [← hpe, ← hqe, e]
  have hlen : 2 ≤ b.length := by
    have := two_le_length_of_mem hp' hq' hpq
    simpa [goKeys] using this
  have hsp : p' ∈ hashSeq ord (sizeStage fs visited) :=
    (mem_hashSeq_sizeStage hord fs visited p').2 ⟨s, b, hb, hlen, hp'⟩
  have hsq : q' ∈ hashSeq ord (sizeStage fs visited) :=
    (mem_hashSeq_sizeStage hord fs visited q').2 ⟨s, b, hb, hlen, hq'⟩
  obtain ⟨v, hv, hpv, hqv⟩ := @group_complete md5sum ord fs visited d p' q' hsp hsq
    ((digestOf_congr hpe).trans hdp) ((digestOf_congr hqe).trans hdq) hpq
  have hs : sizeStage fs visited ≠ [] :=
    List.ne_nil_of_mem ((mem_sizeStage_iff fs visited s b).2 ⟨hb, hlen⟩)
  have hc : checksumStage md5sum ord fs visited ≠ [] := List.ne_nil_of_mem hv
  obtain ⟨r, hr, -, -, hgroups, -⟩ := run_report dryrun md5sum hord fs visited hs hc
  refine ⟨r, hr, v, ?_, p', hpv, q', hqv, hpe, hqe⟩
  rw [hgroups]
  refine List.mem_map.2 ⟨(d, v), ((hord.2.2.2.1 _).mem_iff).2 (List.mem_filter.2 ⟨hv, ?_⟩), rfl⟩
  -- the group is retained: its members are not all hardlinks of the first one
  have hnot : ¬ allHardlinked fs v = true := by
    intro hall
    cases v with
    | nil => simp [allHardlinked] at hall
    | cons c rest =>
      simp only [allHardlinked, Bool.and_eq_true, List.all_eq_true] at hall
      have hsame : ∀ x ∈ c :: rest, fs.entry x = fs.entry c := by
        intro x hx
        rcases List.mem_cons.1 hx with hx | hx
        · rw [hx]
        · exact ((sameAs_iff fs c x).1 (hall.2 x hx)).2.symm
      apply hne
      rw [← hpe, ← hqe, hsame p' hpv, hsame q' hqv]
  simpa using hnot

/-- Witness for C10 on Scenario A. -/
theorem no_duplicate_missed_witness :
    ∃ r, (run true id RangeOrder.stored fsScenarioA ["a.txt", "b.txt"]).report? = some r ∧
      ∃ g ∈ r.groups, ∃ p' ∈ g, ∃ q' ∈ g,
        fsScenarioA.entry p' = fsScenarioA.entry "a.txt" ∧
        fsScenarioA.entry q' = fsScenarioA.entry "b.txt" :=
  no_duplicate_missed true id RangeOrder.stored fsScenarioA ["a.txt", "b.txt"]
    RangeOrder.stored_valid "a.txt" "b.txt" "hello" 5 (by decide) (by decide) (by decide)
    (by decide) (by decide) (by decide) (by decide)

/-! ## Linker -/

/-- C1: for every set of groups the pipeline hands to the linker (the planner's
output for a scan) and every filesystem state at link time in which the canonical
paths exist, if the linker finishes without a delete or link error then, for every
group, every non-canonical member path exists and refers to the file the canonical
path of its group referred to before the linker ran (the inode table is unchanged). -/
theorem linker_postcondition (md5sum : String → String) (ord ord' : RangeOrder) (fs fs1 : FS)
    (visited : List String) (hord : ord.Valid) (hord' : ord'.Valid)
    (groups : GoMap String (List String)) (total : Int)
    (hplan : planner ord fs (checksumStage md5sum ord fs visited) = .ok (groups, total))
    (hcanon : ∀ e ∈ groups, ∀ c, e.2.head? = some c → (Stat fs1 c).isSome)
    (fs' : FS) (tr : List Trace) (hlink : linker ord' fs1 groups = .ok (fs', tr)) :
    ∀ e ∈ groups, ∀ c, e.2.head? = some c → ∀ p ∈ e.2.tail,
      (fs'.entry p).isSome ∧ fs'.entry p = fs1.entry c ∧ fs'.inode = fs1.inode := by
  have hg : groups = plannedGroups md5sum ord fs visited := by
    unfold plannedGroups
    rw [hplan]
  have hmem : ∀ e ∈ ord'.link groups, e ∈ checksumStage md5sum ord fs visited := by
    intro e he
    have := (hord'.2.2.2.2 _).mem_iff.1 he
    rw [hg] at this
    exact mem_plannedGroups hord this
  obtain ⟨hi, -, hl, -⟩ := linkerLoop_post (ord'.link groups) fs1 [] fs' tr hlink
    (fun e he e' he' c hc => canonical_not_member hord (hmem e he) (hmem e' he') hc)
  intro e he c hc p hp
  have hce : (fs1.entry c).isSome := (stat_isSome_iff fs1 c).1 (hcanon e he c hc)
  have he' : e ∈ ord'.link groups := (hord'.2.2.2.2 _).mem_iff.2 he
  have := hl e he' c hc hce p hp
    (fun e' he'' hp' => group_unique (hmem e' he'') (hmem e he')
      (List.mem_of_mem_tail hp') (List.mem_of_mem_tail hp))
  exact ⟨this ▸ hce, this, hi⟩

/-- Witness for C1 on Scenario A: after the apply run `b.txt` exists and refers to
the inode of `a.txt`. -/
theorem linker_postcondition_witness :
    (fsScenarioALinked.entry "b.txt").isSome ∧
      fsScenarioALinked.entry "b.txt" = fsScenarioA.entry "a.txt" ∧
      fsScenarioALinked.inode = fsScenarioA.inode :=
  linker_postcondition id RangeOrder.stored RangeOrder.stored fsScenarioA fsScenarioA
    ["a.txt", "b.txt"] RangeOrder.stored_valid RangeOrder.stored_valid
    [("hello", ["a.txt", "b.txt"])] 5 rfl (by decide) fsScenarioALinked
    [.deleting "b.txt", .linking "a.txt" "b.txt"] rfl
    ("hello", ["a.txt", "b.txt"]) (List.mem_singleton.2 rfl) "a.txt" rfl
    "b.txt" (List.mem_singleton.2 rfl)

/-- C8: in apply mode on a filesystem modelled as a map from path to file, for every
digest function, visiting order and iteration order, the run either finds no
duplicates or completes the linker without a delete or link error (so every
`os.Link` found its canonical path in place); no path it deletes is the canonical
(first) path of any listed group, every canonical path still refers to its file at
the end, and every path occurs at most once across all listed groups. -/
theorem canonical_never_removed (md5sum : String → String) (ord : RangeOrder) (fs : FS)
    (visited : List String) (hord : ord.Valid) :
    run false md5sum ord fs visited = .noDuplicatesAfterSize ∨
    (∃ n, run false md5sum ord fs visited = .noDuplicatesAfterChecksum n) ∨
    ∃ r fs' tr, run false md5sum ord fs visited = .applied r fs' tr ∧
      (∀ p, Trace.deleting p ∈ tr → ∀ g ∈ r.groups, g.head? ≠ some p) ∧
      (∀ g ∈ r.groups, ∀ c, g.head? = some c → (fs.entry c).isSome ∧ fs'.entry c = fs.entry c) ∧
      r.groups.flatten.Nodup := by
  by_cases hs : sizeStage fs visited = []
  · left
    unfold run
    simp [hs]
  by_cases hc : checksumStage md5sum ord fs visited = []
  · right; left
    refine ⟨(sizeStage fs visited).length, ?_⟩
    have h1 : ¬ (sizeStage fs visited).length = 0 := fun e => hs (List.length_eq_zero.1 e)
    unfold run
    simp [h1, hc]
  right; right
  obtain ⟨fs', tr, hlink, hrun⟩ := run_apply md5sum hord fs visited hs hc
  have hmemL : ∀ e ∈ ord.link (plannedGroups md5sum ord fs visited),
      e ∈ checksumStage md5sum ord fs visited :=
    fun e he => mem_plannedGroups hord ((hord.2.2.2.2 _).mem_iff.1 he)
  have hmemP : ∀ g ∈ (ord.listing (plannedGroups md5sum ord fs visited)).map Prod.snd,
      ∃ e ∈ checksumStage md5sum ord fs visited, e.2 = g := by
    intro g hg
    obtain ⟨e, he, rfl⟩ := List.mem_map.1 hg
    exact ⟨e, mem_plannedGroups hord ((hord.2.2.2.1 _).mem_iff.1 he), rfl⟩
  obtain ⟨-, hkeep, -, htr⟩ := linkerLoop_post _ fs [] fs' tr hlink
    (fun e he e' he' c hc' => canonical_not_member hord (hmemL e he) (hmemL e' he') hc')
  refine ⟨_, fs', tr, hrun, ?_, ?_, ?_⟩
  · intro p hp g hg hhead
    obtain ⟨e, he, rfl⟩ := hmemP g hg
    rcases htr _ hp with hnil | ⟨e', he', c, -, q, hq, hpq⟩
    · simp at hnil
    · have hpq' : p = q := by
        rcases hpq with h | h
        · injection h
        · exact Trace.noConfusion h
      subst hpq'
      exact canonical_not_member hord he (hmemL e' he') hhead hq
  · intro g hg c hhead
    obtain ⟨e, he, rfl⟩ := hmemP g hg
    refine ⟨digestOf_entry ((mem_group he c).1 (mem_of_head? hhead)).2, ?_⟩
    exact hkeep c (fun e' he' hm => canonical_not_member hord he (hmemL e' he') hhead hm)
  · have hperm : ((ord.listing (plannedGroups md5sum ord fs visited)).map Prod.snd).flatten.Perm
        (((plannedGroups md5sum ord fs visited).map Prod.snd).flatten) :=
      List.Perm.flatten ((hord.2.2.2.1 _).map Prod.snd)
    exact hperm.nodup_iff.2 (nodup_plannedGroups_paths md5sum hord fs visited)

/-- Witness for C8 on Scenario A. -/
theorem canonical_never_removed_witness :
    run false id RangeOrder.stored fsScenarioA ["a.txt", "b.txt"] = .noDuplicatesAfterSize ∨
    (∃ n, run false id RangeOrder.stored fsScenarioA ["a.txt", "b.txt"] =
      .noDuplicatesAfterChecksum n) ∨
    ∃ r fs' tr, run false id RangeOrder.stored fsScenarioA ["a.txt", "b.txt"] = .applied r fs' tr ∧
      (∀ p, Trace.deleting p ∈ tr → ∀ g ∈ r.groups, g.head? ≠ some p) ∧
      (∀ g ∈ r.groups, ∀ c, g.head? = some c →
        (fsScenarioA.entry c).isSome ∧ fs'.entry c = fsScenarioA.entry c) ∧
      r.groups.flatten.Nodup :=
  canonical_never_removed id RangeOrder.stored fsScenarioA ["a.txt", "b.txt"]
    RangeOrder.stored_valid

/-! ## Departures of the code from the specification -/

/-- C4 at the failing input: `a.txt` and `c.txt` are hardlinks of one file, `b.txt` is
a separate file with the same content.  The planner retains the group, and the group
as listed and as processed by the linker still contains `c.txt`, a hardlink of the
canonical `a.txt` (it is deleted and linked again): the shortened slice was only the
loop-local `v`. -/
theorem planner_keeps_hardlinked_member :
    ∃ r fs' tr,
      run false id RangeOrder.stored fsLinkedEnds ["a.txt", "b.txt", "c.txt"] =
        .applied r fs' tr ∧
      r.groups = [["a.txt", "b.txt", "c.txt"]] ∧ r.spaceFreed = 5 ∧
      tr = [.deleting "c.txt", .linking "a.txt" "c.txt",
            .deleting "b.txt", .linking "a.txt" "b.txt"] ∧
      sameAs fsLinkedEnds "a.txt" "c.txt" = true :=
  ⟨_, _, _, rfl, rfl, rfl, rfl, rfl⟩

/-- C9 at the failing input: the group `[a.txt, b.txt]` reaches the planner and
`b.txt` can no longer be stat'ed; the planner stops with a nil dereference at
`dst.Size()` instead of continuing. -/
theorem planner_panics_on_vanished_member :
    planner RangeOrder.stored fsOnlyA [("hello", ["a.txt", "b.txt"])] =
      .error .nilDereference :=
  rfl

/-- C5, as stated, fails: `a.txt` and `b.txt` are hardlinks of one file and `c.txt` is
a separate file with the same content.  The first apply run (iterating so that
`c.txt` is hashed before `a.txt`) completes: it links `a.txt` to `c.txt` and leaves
`b.txt` on the old file.  The second apply run on the resulting filesystem then
lists the group of the three paths with 5 reclaimable bytes. -/
theorem second_run_finds_duplicates :
    RangeOrder.reversed.Valid ∧ RangeOrder.stored.Valid ∧
    ∃ fs',
      (run false id RangeOrder.reversed fsLinkedPair ["a.txt", "b.txt", "c.txt"]).resultFS
        fsLinkedPair = some fs' ∧
      (run false id RangeOrder.stored fs' ["a.txt", "b.txt", "c.txt"]).nothingToReclaim = false ∧
      ∃ r2 fs2 tr2,
        run false id RangeOrder.stored fs' ["a.txt", "b.txt", "c.txt"] = .applied r2 fs2 tr2 ∧
        r2.groups = [["a.txt", "b.txt", "c.txt"]] ∧ r2.spaceFreed = 5 :=
  ⟨RangeOrder.reversed_valid, RangeOrder.stored_valid,
    _, rfl, rfl, _, _, _, rfl, rfl, rfl⟩

/-- C5, amended: for every filesystem, visited paths, digest function and iteration
orders such that no two different visited regular files are hardlinks of each other
beforehand, if an apply-mode run completes successfully, then a second run (dry or
apply) over the same paths on the resulting filesystem reports "No duplicates found."
or computes zero reclaimable bytes. -/
theorem second_run_nothing_to_reclaim (md5sum : String → String) (ord1 ord2 : RangeOrder)
    (fs fs' : FS) (visited : List String) (dryrun2 : Bool)
    (h1 : ord1.Valid) (h2 : ord2.Valid) (hna : NoAlias fs visited)
    (hrun : (run false md5sum ord1 fs visited).resultFS fs = some fs') :
    (run dryrun2 md5sum ord2 fs' visited).nothingToReclaim = true := by
  -- the filesystem after the first run
  have hlinked : LinkedFrom fs fs' (checksumStage md5sum ord1 fs visited) := by
    by_cases hs : sizeStage fs visited = []
    · have hr : run false md5sum ord1 fs visited = .noDuplicatesAfterSize := by
        unfold run
        simp [hs]
      rw [hr] at hrun
      simp only [Outcome.resultFS, Option.some.injEq] at hrun
      subst hrun
      rw [checksumStage_eq_nil_of_sizeStage h1 hs]
      exact linkedFrom_nil fs
    by_cases hc : checksumStage md5sum ord1 fs visited = []
    · have hn : ¬ (sizeStage fs visited).length = 0 := fun e => hs (List.length_eq_zero.1 e)
      have hr : run false md5sum ord1 fs visited =
          .noDuplicatesAfterChecksum (sizeStage fs visited).length := by
        unfold run
        simp [hn, hc]
      rw [hr] at hrun
      simp only [Outcome.resultFS, Option.some.injEq] at hrun
      subst hrun
      rw [hc]
      exact linkedFrom_nil fs
    · obtain ⟨fs1, tr, hlink, hr⟩ := run_apply md5sum h1 fs visited hs hc
      rw [hr] at hrun
      simp only [Outcome.resultFS, Option.some.injEq] at hrun
      subst hrun
      rw [plannedGroups_of_noAlias md5sum h1 hna] at hlink
      exact linkedFrom_linker md5sum h1 hlink
  -- the second run
  have hall := second_scan_groups_linked md5sum h1 h2 hna hlinked
  have hzero : wrapInt64 (reclaimable fs' (checksumStage md5sum ord2 fs' visited)) = 0 := by
    rw [reclaimable_zero hall]
    rfl
  by_cases hs : sizeStage fs' visited = []
  · have hr : run dryrun2 md5sum ord2 fs' visited = .noDuplicatesAfterSize := by
      unfold run
      simp [hs]
    rw [hr]
    rfl
  by_cases hc : checksumStage md5sum ord2 fs' visited = []
  · have hn : ¬ (sizeStage fs' visited).length = 0 := fun e => hs (List.length_eq_zero.1 e)
    have hr : run dryrun2 md5sum ord2 fs' visited =
        .noDuplicatesAfterChecksum (sizeStage fs' visited).length := by
      unfold run
      simp [hn, hc]
    rw [hr]
    rfl
  cases dryrun2 with
  | true =>
    rw [run_dry md5sum h2 fs' visited hs hc]
    simp [Outcome.nothingToReclaim, hzero]
  | false =>
    obtain ⟨fs2, tr2, -, hr⟩ := run_apply md5sum h2 fs' visited hs hc
    rw [hr]
    simp [Outcome.nothingToReclaim, hzero]

/-- Witness for the amended C5 on Scenario A: after the apply run a dry run has
nothing to reclaim. -/
theorem second_run_nothing_to_reclaim_witness :
    (run true id RangeOrder.stored fsScenarioALinked ["a.txt", "b.txt"]).nothingToReclaim = true :=
  second_run_nothing_to_reclaim id RangeOrder.stored RangeOrder.stored fsScenarioA
    fsScenarioALinked ["a.txt", "b.txt"] true RangeOrder.stored_valid RangeOrder.stored_valid
    (by
      intro p hp q hq s t _ _ he
      simp only [List.mem_cons, List.mem_singleton, List.mem_nil_iff, or_false] at hp hq
      rcases hp with hp | hp <;> rcases hq with hq | hq <;> subst hp <;> subst hq
      · rfl
      · exact absurd he (by decide)
      · exact absurd he (by decide)
      · rfl)
    rfl
end Duphard
